import Mathlib

/-!
# Viry3D: the InputField state machine and the canvas atlas

A shallow embedding of `lib/src/ui/InputField.cpp` (the constructor, the three
touch handlers, `Update`, `SetText`, `OnGotFocus`, `OnLostFocus`, `SetCaretPos`)
and of the atlas packing tree declared in `viry3d-vk/lib/src/ui/CanvasRenderer.h`.

Conventions of the embedding

* `float` values (times, colour channels, margins) are exact rationals.
* `int` values are mathematical integers (pixel coordinates and glyph counts).
* A `String` is the list of its bytes.
* An access `v[i]` outside the bounds of a `Vector` has no defined result in
  C++; every function that performs such accesses returns `Option`, and `none`
  stands for an out-of-range access.
* `Time::GetTime()` and `Input::GetInputQueueCharacters()` are read from the
  environment in the source; here they are the arguments `now` and `chars`.
-/

namespace Viry3D

/-! ## Data model -/

/-- The bytes of a `String`. -/
abbrev Str := List Nat

/-- Integer pair, `Vector2i` in the source. -/
structure Vector2i where
  x : Int
  y : Int
  deriving DecidableEq, Repr

/-- Four floats, `Vector4` in the source (used for margins: left, top, right, bottom). -/
structure Vector4 where
  x : ℚ
  y : ℚ
  z : ℚ
  w : ℚ
  deriving DecidableEq

/-- An RGBA colour. -/
structure Color where
  r : ℚ
  g : ℚ
  b : ℚ
  a : ℚ
  deriving DecidableEq

/-- The mesh of one glyph: only its vertex positions are read by `InputField`
(`meshes[index].vertices[3].x`). -/
structure ViewMesh where
  vertices : List Vector2i
  deriving DecidableEq, Repr

/-- One laid-out line of a `Label`: only `meshes` is read by `InputField`. -/
structure LabelLine where
  meshes : List ViewMesh
  deriving DecidableEq, Repr

/-- What `GetParentView()` of a child view of the field can return: `nullptr`,
the field itself (`this`), or some other view. -/
inductive ParentView where
  | null
  | this
  | other
  deriving DecidableEq, Repr

/-- Modelled from the spec: `View::AddSubview` is not part of the sources at hand.
A view has at most one parent at a time, and adding it to a new parent while it
is attached elsewhere first detaches it; so after `this->AddSubview(v)` the parent
of `v` is `this`, whatever it was before. The function maps the old parent
pointer of the child to the new one. -/
def View.AddSubview (_old : ParentView) : ParentView := ParentView.this

/-- Modelled from the spec: `View::RemoveSubview` is not part of the sources at hand.
Removal detaches the child from this parent: a child of `this` ends with no
parent, and a view that is not a child of `this` is left where it is. -/
def View.RemoveSubview (old : ParentView) : ParentView :=
  match old with
  | ParentView.this => ParentView.null
  | p => p

/-- The part of a `Label` that `InputField` reads or writes: its text, its colour
and its parent view. Size, margin, alignment and font are written once by the
constructor and never read by `InputField`; they are fixed and live in the
layout function of `Env`. -/
structure Label where
  m_text : Str
  m_color : Color
  m_parent_view : ParentView
  deriving DecidableEq

/-- The part of a `Sprite` that `InputField` reads or writes. -/
structure Sprite where
  m_color : Color
  m_offset : Vector2i
  m_parent_view : ParentView
  deriving DecidableEq

/-- The collaborators of `InputField` that are not part of the sources at hand,
taken as parameters.

* `layout`: the text system. Modelled from the spec: "a Label exposes its current
  laid-out geometry as an ordered sequence of line records, each an ordered
  sequence of glyph meshes with per-glyph vertex positions"; `layout t` is the
  geometry of the label of the field when its text is `t`.
* `decode`: the conversion of the collected input bytes to a `String`
  (`String(&cs[0], cs.Size())`, through `String::Gb2312ToUtf8` under `VR_WINDOWS`). -/
structure Env where
  layout : Str → List LabelLine
  decode : List Nat → Str

/-- The fields of `InputField`, with its three child views held by value. -/
structure InputField where
  m_caret_pos : Vector2i
  m_caret_blink_rate : ℚ
  m_caret_blink_show : Bool
  m_caret_blink_time : ℚ
  m_touch_down : Bool
  m_focused : Bool
  m_label_margin : Vector4
  m_placeholder : Label
  m_label : Label
  m_caret : Sprite
  deriving DecidableEq

/-! ## Label -/

/-- The method `Label::SetText`. -/
def Label.SetText (l : Label) (text : Str) : Label := { l with m_text := text }

/-- The method `Label::GetText`. -/
def Label.GetText (l : Label) : Str := l.m_text

/-- The method `Label::GetLines`: the current laid-out geometry of the label. -/
def Label.GetLines (E : Env) (l : Label) : List LabelLine := E.layout l.m_text

/-- The method `Label::SetColor` / `Sprite::SetColor`. -/
def Sprite.SetColor (v : Sprite) (c : Color) : Sprite := { v with m_color := c }

/-- The method `Sprite::SetOffset`. -/
def Sprite.SetOffset (v : Sprite) (o : Vector2i) : Sprite := { v with m_offset := o }

/-- The C cast `(int) f` of a float: truncation toward zero. -/
def castInt (q : ℚ) : Int := Int.tdiv q.num q.den

/-! ## InputField -/

/-- The constructor `InputField::InputField()`: the placeholder and the label are
added as subviews, the caret sprite is created but not added. -/
def InputField.new : InputField :=
  { m_caret_pos := ⟨-1, -1⟩
    m_caret_blink_rate := 1 / 2
    m_caret_blink_show := true
    m_caret_blink_time := 0
    m_touch_down := false
    m_focused := false
    m_label_margin := ⟨10, 0, 10, 0⟩
    m_placeholder :=
      { m_text := [], m_color := ⟨4 / 5, 4 / 5, 4 / 5, 1⟩,
        m_parent_view := View.AddSubview ParentView.null }
    m_label :=
      { m_text := [], m_color := ⟨0, 0, 0, 1⟩,
        m_parent_view := View.AddSubview ParentView.null }
    m_caret :=
      { m_color := ⟨0, 0, 0, 1⟩, m_offset := ⟨0, 0⟩, m_parent_view := ParentView.null } }

/-- The method `InputField::SetCaretPos(line, index)`. -/
def InputField.SetCaretPos (E : Env) (line index : Int) (s : InputField) :
    Option InputField :=
  let lines := s.m_label.GetLines E
  if line < 0 ∨ index < 0 then
    some { s with
      m_caret := s.m_caret.SetOffset ⟨castInt s.m_label_margin.x, 0⟩
      m_caret_pos := ⟨line, index⟩ }
  else do
    let l ← lines[line.toNat]?
    let m ← l.meshes[index.toNat]?
    let v ← m.vertices[3]?
    some { s with
      m_caret := s.m_caret.SetOffset ⟨castInt s.m_label_margin.x + v.x, 0⟩
      m_caret_pos := ⟨line, index⟩ }

/-- The method `InputField::OnGotFocus()`, with `now` the value of `Time::GetTime()`. -/
def InputField.OnGotFocus (E : Env) (now : ℚ) (s : InputField) : Option InputField :=
  let s1 := { s with
    m_caret := { s.m_caret with m_parent_view := View.AddSubview s.m_caret.m_parent_view } }
  let positioned :=
    match s1.m_label.GetLines E with
    | l0 :: _ => s1.SetCaretPos E 0 ((l0.meshes.length : Int) - 1)
    | [] => s1.SetCaretPos E (-1) (-1)
  positioned.map fun s2 => { s2 with m_caret_blink_time := now }

/-- The method `InputField::OnLostFocus()`. -/
def InputField.OnLostFocus (s : InputField) : InputField :=
  { s with
    m_caret := { s.m_caret with m_parent_view := View.RemoveSubview s.m_caret.m_parent_view } }

/-- The handler installed by `SetOnTouchDownInside`; the second component is the
returned "handled" flag. -/
def InputField.OnTouchDownInside (s : InputField) : InputField × Bool :=
  ({ s with m_touch_down := true }, true)

/-- The handler installed by `SetOnTouchUpInside`. -/
def InputField.OnTouchUpInside (E : Env) (now : ℚ) (s : InputField) :
    Option (InputField × Bool) :=
  if s.m_touch_down then
    let s1 := { s with m_touch_down := false }
    if !s1.m_focused then
      (InputField.OnGotFocus E now { s1 with m_focused := true }).map fun s2 => (s2, true)
    else
      some (s1, true)
  else
    some (s, true)

/-- The handler installed by `SetOnTouchUpOutside`. -/
def InputField.OnTouchUpOutside (s : InputField) : InputField × Bool :=
  let s1 := { s with m_touch_down := false }
  if s1.m_focused then
    (InputField.OnLostFocus { s1 with m_focused := false }, false)
  else
    (s1, false)

/-- The bytes `cs` collected from the input queue in `Update`: a character up to
`0xff` gives one byte, a larger one gives its high byte and then its low byte. -/
def inputBytes (chars : List Nat) : List Nat :=
  chars.flatMap fun c =>
    if c ≤ 0xff then [c &&& 0xff] else [(c &&& 0xff00) >>> 8, c &&& 0xff]

/-- The "append" branch of `Update`: the label text gets `str` appended and the
caret goes to the last glyph mesh of line 0 of the new layout. -/
def InputField.appendInput (E : Env) (str : Str) (s : InputField) : Option InputField :=
  let s1 := { s with m_label := s.m_label.SetText (s.m_label.GetText ++ str) }
  match s1.m_label.GetLines E with
  | l0 :: _ => s1.SetCaretPos E 0 ((l0.meshes.length : Int) - 1)
  | [] => none

/-- The caret blinking of `Update` (the first block under `if (m_focused)`). -/
def InputField.blinkCaret (now : ℚ) (s : InputField) : InputField :=
  if now - s.m_caret_blink_time > s.m_caret_blink_rate then
    { s with
      m_caret :=
        if s.m_caret_blink_show then s.m_caret.SetColor ⟨0, 0, 0, 0⟩
        else s.m_caret.SetColor ⟨0, 0, 0, 1⟩
      m_caret_blink_show := !s.m_caret_blink_show
      m_caret_blink_time := now }
  else s

/-- The input processing of `Update` (the second block under `if (m_focused)`).
The condition of the source is evaluated left to right with short-circuit:
`GetLines()[0]` is read only when the caret is not at a doubly negative position
and its line is 0. -/
def InputField.processInput (E : Env) (chars : List Nat) (s : InputField) :
    Option InputField :=
  if chars.length > 0 then
    let cs := inputBytes chars
    let str := E.decode cs
    if str.length > 0 then
      if s.m_caret_pos.x < 0 ∧ s.m_caret_pos.y < 0 then
        s.appendInput E str
      else if s.m_caret_pos.x = 0 then
        match s.m_label.GetLines E with
        | l0 :: _ =>
          if s.m_caret_pos.y = (l0.meshes.length : Int) - 1 then s.appendInput E str
          else some s
        | [] => none
      else some s
    else some s
  else some s

/-- The method `InputField::Update()`, with `now` the value of `Time::GetTime()` and `chars`
the content of `Input::GetInputQueueCharacters()`. -/
def InputField.Update (E : Env) (now : ℚ) (chars : List Nat) (s : InputField) :
    Option InputField :=
  if s.m_focused then
    (s.blinkCaret now).processInput E chars
  else some s

/-- The method `InputField::SetPlaceholderText`. -/
def InputField.SetPlaceholderText (placeholder : Str) (s : InputField) : InputField :=
  { s with m_placeholder := s.m_placeholder.SetText placeholder }

/-- The method `InputField::SetPlaceholderTextColor`. -/
def InputField.SetPlaceholderTextColor (color : Color) (s : InputField) : InputField :=
  { s with m_placeholder := { s.m_placeholder with m_color := color } }

/-- The method `InputField::SetCaretBlinkRate`. -/
def InputField.SetCaretBlinkRate (rate : ℚ) (s : InputField) : InputField :=
  { s with m_caret_blink_rate := rate }

/-- The method `InputField::GetText`. -/
def InputField.GetText (s : InputField) : Str := s.m_label.GetText

/-- The method `InputField::SetText`. -/
def InputField.SetText (text : Str) (s : InputField) : InputField :=
  let s1 := { s with m_label := s.m_label.SetText text }
  if text.length > 0 then
    if s1.m_placeholder.m_parent_view = ParentView.this then
      { s1 with m_placeholder :=
          { s1.m_placeholder with
            m_parent_view := View.RemoveSubview s1.m_placeholder.m_parent_view } }
    else s1
  else
    if s1.m_placeholder.m_parent_view = ParentView.null then
      { s1 with m_placeholder :=
          { s1.m_placeholder with
            m_parent_view := View.AddSubview s1.m_placeholder.m_parent_view } }
    else s1

/-! ## Sequences of operations -/

/-- The operations a client of an `InputField` can perform on it: its public
setters, the three touch events delivered by the canvas, and the per-frame
`Update` (with the time and the input queue it reads). -/
inductive Op where
  | setText (text : Str)
  | setPlaceholderText (text : Str)
  | setPlaceholderTextColor (color : Color)
  | setCaretBlinkRate (rate : ℚ)
  | touchDownInside
  | touchUpInside (now : ℚ)
  | touchUpOutside
  | update (now : ℚ) (chars : List Nat)

/-- One operation on a field. -/
def InputField.step (E : Env) (s : InputField) : Op → Option InputField
  | Op.setText t => some (s.SetText t)
  | Op.setPlaceholderText t => some (s.SetPlaceholderText t)
  | Op.setPlaceholderTextColor c => some (s.SetPlaceholderTextColor c)
  | Op.setCaretBlinkRate r => some (s.SetCaretBlinkRate r)
  | Op.touchDownInside => some s.OnTouchDownInside.1
  | Op.touchUpInside now => (s.OnTouchUpInside E now).map Prod.fst
  | Op.touchUpOutside => some s.OnTouchUpOutside.1
  | Op.update now chars => s.Update E now chars

/-- A sequence of operations, from left to right. -/
def InputField.run (E : Env) (s : InputField) : List Op → Option InputField
  | [] => some s
  | op :: ops => (s.step E op).bind fun s1 => s1.run E ops

/-- The states reachable from construction. -/
def Reachable (E : Env) (s : InputField) : Prop :=
  ∃ ops : List Op, InputField.new.run E ops = some s

/-! ## Concrete layouts, for running the field on explicit inputs -/

/-- The quad of the `i`-th glyph of a line of glyphs 8 pixels wide and 16 high;
vertex 3 is on its right edge. -/
def glyphQuad (i : Nat) : ViewMesh :=
  ⟨[⟨8 * i, 0⟩, ⟨8 * i, 16⟩, ⟨8 * i + 8, 16⟩, ⟨8 * i + 8, 0⟩]⟩

/-- A single-line layout: no line for the empty text, otherwise one line with one
quad per byte. -/
def monoLayout (t : Str) : List LabelLine :=
  if t = [] then [] else [⟨(List.range t.length).map glyphQuad⟩]

/-- A layout that breaks the line after every glyph: one line per byte. -/
def wrapLayout (t : Str) : List LabelLine :=
  t.map fun _ => ⟨[glyphQuad 0]⟩

/-- The single-line environment, with the identity decoding of the non-Windows build. -/
def monoEnv : Env := ⟨monoLayout, id⟩

/-- The environment that breaks the line after every glyph. -/
def wrapEnv : Env := ⟨wrapLayout, id⟩

/-! ## Predicates and sample states used by the statements about `InputField` -/

/-- The last glyph mesh of line 0, when there is one, has a vertex 3 (it is a quad). -/
def lastGlyphIsQuad (lines : List LabelLine) : Prop :=
  ∀ l0 ∈ lines.head?, ∀ m ∈ l0.meshes.getLast?, 4 ≤ m.vertices.length

/-- The trailing position of the caret, in the words of the specification: the
position `(-1,-1)`, or line 0 with index equal to the number of glyph meshes of
line 0 minus 1. -/
def atTrailingPosition (lines : List LabelLine) (pos : Vector2i) : Prop :=
  pos = ⟨-1, -1⟩ ∨
    (pos.x = 0 ∧ ∃ l0 ∈ lines.head?, pos.y = (l0.meshes.length : Int) - 1)

/-- The caret positions the field ever stores: `(-1,-1)`, or an index of line 0
(from `-1`, for a line without glyphs). -/
def caretPosOk (s : InputField) : Prop :=
  s.m_caret_pos = ⟨-1, -1⟩ ∨ (s.m_caret_pos.x = 0 ∧ -1 ≤ s.m_caret_pos.y)

/-- The end of the current text, in the words of the specification: the last glyph
of the text, which is the last glyph of the last line, and `(-1,-1)` when the
label has no lines. -/
def endOfText (lines : List LabelLine) : Vector2i :=
  match lines.getLast? with
  | some l => ⟨(lines.length : Int) - 1, (l.meshes.length : Int) - 1⟩
  | none => ⟨-1, -1⟩

/-- The caret colour agrees with the blink flag: black with alpha 1 when the flag
is set, alpha 0 when it is not. -/
def blinkSync (s : InputField) : Prop :=
  s.m_caret.m_color = ⟨0, 0, 0, if s.m_caret_blink_show then 1 else 0⟩

/-- The field after construction and a tap (touch down and up inside) in the
single-line environment: focused, caret attached at the left margin. -/
def focusedField : InputField :=
  { InputField.new with
    m_focused := true
    m_caret := { m_color := ⟨0, 0, 0, 1⟩, m_offset := ⟨10, 0⟩, m_parent_view := ParentView.this } }

/-- The caret sprite and the focus flag agree: a focused field has the caret as a
subview, an unfocused field has a caret without parent. -/
def caretAttachOk (s : InputField) : Prop :=
  (s.m_focused = true ∧ s.m_caret.m_parent_view = ParentView.this) ∨
    (s.m_focused = false ∧ s.m_caret.m_parent_view = ParentView.null)

/-- The field after construction, `SetText("ab")`, a tap, and `SetText("")` in the
single-line environment: focused, the caret still after the second glyph, and a
label without text. -/
def clearedField : InputField :=
  { InputField.new with
    m_caret_pos := ⟨0, 1⟩
    m_focused := true
    m_caret := { m_color := ⟨0, 0, 0, 1⟩, m_offset := ⟨26, 0⟩, m_parent_view := ParentView.this } }

/-- The focused field after an `Update` one second later: the caret is hidden. -/
def hiddenCaretField : InputField :=
  { focusedField with
    m_caret_blink_show := false
    m_caret_blink_time := 1
    m_caret := { m_color := ⟨0, 0, 0, 0⟩, m_offset := ⟨10, 0⟩, m_parent_view := ParentView.this } }

/-! ## The atlas packing tree -/

/-- The struct `AtlasTreeNode` of `CanvasRenderer.h`: a rectangle `(x, y, w, h)` of the atlas
layer `layer`, with its child nodes. -/
inductive AtlasTreeNode where
  | mk (x y w h layer : Int) (children : List AtlasTreeNode)

/-- Field `x`. -/
def AtlasTreeNode.x : AtlasTreeNode → Int
  | mk x _ _ _ _ _ => x

/-- Field `y`. -/
def AtlasTreeNode.y : AtlasTreeNode → Int
  | mk _ y _ _ _ _ => y

/-- Field `w`. -/
def AtlasTreeNode.w : AtlasTreeNode → Int
  | mk _ _ w _ _ _ => w

/-- Field `h`. -/
def AtlasTreeNode.h : AtlasTreeNode → Int
  | mk _ _ _ h _ _ => h

/-- Field `layer`. -/
def AtlasTreeNode.layer : AtlasTreeNode → Int
  | mk _ _ _ _ l _ => l

/-- Field `children`. -/
def AtlasTreeNode.children : AtlasTreeNode → List AtlasTreeNode
  | mk _ _ _ _ _ cs => cs

/-- A pointer `AtlasTreeNode*` into the forest `m_atlas_tree`: the index of the
tree (one tree per atlas layer) and the child indices leading from its root to
the node. -/
structure NodeRef where
  tree : Nat
  path : List Nat
  deriving DecidableEq, Repr

/-- The atlas part of `CanvasRenderer` (`CanvasRenderer.h`): the number of layers
of the atlas texture array, the packing trees (one root per layer) and the cache
from texture identity to the node holding the texture. The `Map` is an
association list. -/
structure CanvasRenderer where
  m_atlas_array_size : Int
  m_atlas_tree : List AtlasTreeNode
  m_atlas_cache : List (Nat × NodeRef)

/-- Modelled from the spec: the parts of the packing policy that section 4.1 leaves
open, as parameters. `size` is the width and height of an atlas layer (bounded by
the maximum texture dimension of the backend); `maxLayers` is the optional cap on
the number of layers ("only if a maximum layer count is configured");
`nearFit w h W H` says whether a free `W × H` node that is not an exact fit is
accepted whole for a `w × h` request ("accept it as an exact/near fit");
`splitAlongX w h W H` chooses the split axis when both axes have slack
("whichever axis better fits the requested rectangle", with its tie-break). -/
structure AtlasPolicy where
  size : Int
  maxLayers : Option Nat
  nearFit : Int → Int → Int → Int → Bool
  splitAlongX : Int → Int → Int → Int → Bool

/-- The node reached from `t` along the child indices `p`, when there is one. -/
def AtlasTreeNode.descend : AtlasTreeNode → List Nat → Option AtlasTreeNode
  | t, [] => some t
  | mk _ _ _ _ _ cs, i :: p =>
    match cs[i]? with
    | some c => c.descend p
    | none => none

/-- The tree `t` with the node at `p` replaced by its image under `f` (and `t`
itself when no node is at `p`). -/
def AtlasTreeNode.update (f : AtlasTreeNode → AtlasTreeNode) :
    List Nat → AtlasTreeNode → AtlasTreeNode
  | [], t => f t
  | i :: p, mk x y w h l cs => mk x y w h l (cs.modify (AtlasTreeNode.update f p) i)

/-- The node a reference points to. -/
def CanvasRenderer.nodeAt (s : CanvasRenderer) (r : NodeRef) : Option AtlasTreeNode :=
  match s.m_atlas_tree[r.tree]? with
  | some t => t.descend r.path
  | none => none

/-- Modelled from the spec: "a leaf with no children is either free or occupied —
occupancy tracked by presence in the allocation cache". -/
def occupied (cache : List (Nat × NodeRef)) (r : NodeRef) : Bool :=
  cache.any fun e => e.2 = r

mutual
/-- Modelled from the spec: `CanvasRenderer::FindAtlasTreeNodeToInsert(w, h, node)`
is declared in `CanvasRenderer.h` and defined outside the sources at hand. "Search
order: try the node's children if split; otherwise, if the node is free and large
enough", it is the node found. `occ` tells which nodes below `node` are occupied
and `p` is the path of `node`; the result is the path of the node found. -/
def FindAtlasTreeNodeToInsert (occ : List Nat → Bool) (w h : Int) :
    AtlasTreeNode → List Nat → Option (List Nat)
  | AtlasTreeNode.mk _ _ W H _ [], p =>
    if !occ p && decide (w ≤ W) && decide (h ≤ H) then some p else none
  | AtlasTreeNode.mk _ _ _ _ _ (c :: cs), p => findInChildren occ w h (c :: cs) p 0
/-- The search of `FindAtlasTreeNodeToInsert` through the children of a split
node, in order; `i` is the index of the first child of the list. -/
def findInChildren (occ : List Nat → Bool) (w h : Int) :
    List AtlasTreeNode → List Nat → Nat → Option (List Nat)
  | [], _, _ => none
  | c :: cs, p, i =>
    match FindAtlasTreeNodeToInsert occ w h c (p ++ [i]) with
    | some r => some r
    | none => findInChildren occ w h cs p (i + 1)
end

/-- Modelled from the spec: a free node is accepted "as an exact/near fit". -/
def accepts (P : AtlasPolicy) (w h : Int) (n : AtlasTreeNode) : Bool :=
  (decide (w = n.w) && decide (h = n.h)) || P.nearFit w h n.w n.h

/-- The split of a node in two along the x axis at width `w`: the left child and
the remainder, both free leaves. -/
def splitX (w : Int) (n : AtlasTreeNode) : AtlasTreeNode × AtlasTreeNode :=
  (AtlasTreeNode.mk n.x n.y w n.h n.layer [],
   AtlasTreeNode.mk (n.x + w) n.y (n.w - w) n.h n.layer [])

/-- The split of a node in two along the y axis at height `h`. -/
def splitY (h : Int) (n : AtlasTreeNode) : AtlasTreeNode × AtlasTreeNode :=
  (AtlasTreeNode.mk n.x n.y n.w h n.layer [],
   AtlasTreeNode.mk n.x (n.y + h) n.w (n.h - h) n.layer [])

/-- The split of the free leaf `n` for a `w × h` request, first along the x axis
when `alongX` is set and along the y axis otherwise. The first child is accepted
or split once more, along the other axis. The result is the subtree that replaces
the leaf and the path, below the leaf, of the node that holds the request. -/
def splitFor (P : AtlasPolicy) (w h : Int) (n : AtlasTreeNode) (alongX : Bool) :
    AtlasTreeNode × List Nat :=
  let c := if alongX then splitX w n else splitY h n
  if accepts P w h c.1 then
    (AtlasTreeNode.mk n.x n.y n.w n.h n.layer [c.1, c.2], [0])
  else
    let d := if alongX then splitY h c.1 else splitX w c.1
    (AtlasTreeNode.mk n.x n.y n.w n.h n.layer
      [AtlasTreeNode.mk c.1.x c.1.y c.1.w c.1.h c.1.layer [d.1, d.2], c.2], [0, 0])

/-- Modelled from the spec: what the search does with the free leaf it found:
"either accept it as an exact/near fit or split it, placing the requested
rectangle in one child and leaving the remainder as a new free sibling"; a node
"is split into exactly two children along whichever axis better fits". The split
axis is forced when one side already fits exactly and is the choice of the policy
otherwise. The result is the subtree that replaces the leaf and the path, below
the leaf, of the node that holds the request. -/
def place (P : AtlasPolicy) (w h : Int) (n : AtlasTreeNode) :
    AtlasTreeNode × List Nat :=
  if accepts P w h n then (n, [])
  else
    splitFor P w h n
      (if w = n.w then false else if h = n.h then true else P.splitAlongX w h n.w n.h)

/-- Modelled from the spec: `CanvasRenderer::NewAtlasTextureLayer`, "creating a new
independent tree rooted at a fresh GPU texture array slice". -/
def CanvasRenderer.NewAtlasTextureLayer (P : AtlasPolicy) (s : CanvasRenderer) :
    CanvasRenderer :=
  { s with
    m_atlas_array_size := s.m_atlas_array_size + 1
    m_atlas_tree := s.m_atlas_tree ++
      [AtlasTreeNode.mk 0 0 P.size P.size s.m_atlas_tree.length []] }

/-- The search of the layers, in order, for a node to insert into; `i` is the
index of the first tree of the list. -/
def findInLayers (cache : List (Nat × NodeRef)) (w h : Int) :
    List AtlasTreeNode → Nat → Option NodeRef
  | [], _ => none
  | t :: ts, i =>
    match FindAtlasTreeNodeToInsert (fun p => occupied cache ⟨i, p⟩) w h t [] with
    | some p => some ⟨i, p⟩
    | none => findInLayers cache w h ts (i + 1)

/-- The free node `r` found by the search takes the texture `tex`: the node is
accepted or split by `place`, and the cache maps `tex` to the node that holds it. -/
def CanvasRenderer.insertAt (P : AtlasPolicy) (tex : Nat) (w h : Int) (r : NodeRef)
    (s : CanvasRenderer) : CanvasRenderer × NodeRef :=
  match s.nodeAt r with
  | some n =>
    let placed := place P w h n
    let r' : NodeRef := ⟨r.tree, r.path ++ placed.2⟩
    ({ s with
        m_atlas_tree := s.m_atlas_tree.modify (AtlasTreeNode.update (fun _ => placed.1) r.path)
          r.tree
        m_atlas_cache := (tex, r') :: s.m_atlas_cache }, r')
  | none => (s, r)

/-- Modelled from the spec: `Allocate(width, height) -> region or failure`, for the
texture `tex`. A texture that is in the cache keeps its region ("one texture maps
to exactly one packed region at a time"). Otherwise the layers are searched; "on
failure to find a fit in the current layer, NewAtlasTextureLayer is invoked ...
allocation then retries against the new layer". The result is `none` (failure,
`AtlasExhausted`) when the layer count is capped and reached, or when the request
does not fit an empty layer. -/
def CanvasRenderer.Allocate (P : AtlasPolicy) (tex w h : Nat) (s : CanvasRenderer) :
    Option (CanvasRenderer × NodeRef) :=
  match s.m_atlas_cache.find? (fun e => e.1 = tex) with
  | some e => some (s, e.2)
  | none =>
    match findInLayers s.m_atlas_cache w h s.m_atlas_tree 0 with
    | some r => some (s.insertAt P tex w h r)
    | none =>
      let capped :=
        match P.maxLayers with
        | some m => decide (m ≤ s.m_atlas_tree.length)
        | none => false
      if capped || decide (P.size < (w : Int)) || decide (P.size < (h : Int)) then none
      else
        let s1 := s.NewAtlasTextureLayer P
        some (s1.insertAt P tex w h ⟨s.m_atlas_tree.length, []⟩)

/-- Every child of `parent` (the node at path `q`) is a free leaf. -/
def allChildrenFree (occ : List Nat → Bool) (q : List Nat) (parent : AtlasTreeNode) : Bool :=
  (List.range parent.children.length).all fun i =>
    match parent.children[i]? with
    | some c => c.children.isEmpty && !occ (q ++ [i])
    | none => true

/-- A node without its children. -/
def AtlasTreeNode.clear : AtlasTreeNode → AtlasTreeNode
  | mk x y w h l _ => mk x y w h l []

/-- Modelled from the spec: the coalescing done on release, "coalesce
opportunistically on release, not deferred": starting from the parent of the
released node and going up, a node whose children are all free leaves loses its
children and is a free leaf again. The path of the released node is given in
reverse (last child index first). -/
def coalesce (occ : List Nat → Bool) : List Nat → AtlasTreeNode → AtlasTreeNode
  | [], t => t
  | _ :: rq, t =>
    match t.descend rq.reverse with
    | some parent =>
      if allChildrenFree occ rq.reverse parent then
        coalesce occ rq (t.update AtlasTreeNode.clear rq.reverse)
      else t
    | none => t

/-- Modelled from the spec: `CanvasRenderer::ReleaseAtlasTreeNode(node)` is declared
in `CanvasRenderer.h` and defined outside the sources at hand. "Release marks the
leaf free and is eligible for coalescing with sibling leaves": the node leaves the
cache, and its tree is coalesced from the node upward. -/
def CanvasRenderer.ReleaseAtlasTreeNode (r : NodeRef) (s : CanvasRenderer) :
    CanvasRenderer :=
  let cache := s.m_atlas_cache.filter fun e => e.2 ≠ r
  { s with
    m_atlas_cache := cache
    m_atlas_tree := s.m_atlas_tree.modify
      (coalesce (fun p => occupied cache ⟨r.tree, p⟩) r.path.reverse) r.tree }

/-- The operations on the atlas. -/
inductive AtlasOp where
  | allocate (tex w h : Nat)
  | release (r : NodeRef)
  | newLayer

/-- One operation on the atlas; a failed allocation leaves the atlas as it was,
and so does a new layer beyond the cap. -/
def CanvasRenderer.apply (P : AtlasPolicy) (s : CanvasRenderer) : AtlasOp → CanvasRenderer
  | AtlasOp.allocate tex w h =>
    match s.Allocate P tex w h with
    | some r => r.1
    | none => s
  | AtlasOp.release r => s.ReleaseAtlasTreeNode r
  | AtlasOp.newLayer =>
    match P.maxLayers with
    | some m => if m ≤ s.m_atlas_tree.length then s else s.NewAtlasTextureLayer P
    | none => s.NewAtlasTextureLayer P

/-- The atlas of a new `CanvasRenderer`: no layer, nothing cached. -/
def CanvasRenderer.empty : CanvasRenderer := ⟨0, [], []⟩

/-- A sequence of operations on the atlas, from left to right. -/
def CanvasRenderer.runOps (P : AtlasPolicy) (s : CanvasRenderer) (ops : List AtlasOp) :
    CanvasRenderer :=
  ops.foldl (CanvasRenderer.apply P) s

/-- The rectangles `a` and `b` have a pixel in common. -/
def overlaps (a b : AtlasTreeNode) : Prop :=
  a.x < b.x + b.w ∧ b.x < a.x + a.w ∧ 0 < a.w ∧ 0 < b.w ∧
  a.y < b.y + b.h ∧ b.y < a.y + a.h ∧ 0 < a.h ∧ 0 < b.h

/-- The live regions: the nodes the cache points to. -/
def CanvasRenderer.liveRegions (s : CanvasRenderer) : List AtlasTreeNode :=
  s.m_atlas_cache.filterMap fun e => s.nodeAt e.2

/-- The classic policy: exact fits only, split along the axis with more slack;
layers of 16 by 16. -/
def demoPolicy : AtlasPolicy :=
  { size := 16, maxLayers := none, nearFit := fun _ _ _ _ => false,
    splitAlongX := fun w h W H => decide (H - h < W - w) }

/-! ## Predicates used by the statements about the atlas -/

/-- The rectangle of `c` lies within the rectangle of `n`. -/
def within (c n : AtlasTreeNode) : Prop :=
  n.x ≤ c.x ∧ c.x + c.w ≤ n.x + n.w ∧ n.y ≤ c.y ∧ c.y + c.h ≤ n.y + n.h

/-- The nodes `a` and `b` stand for the same region: same rectangle, same layer. -/
def sameRegion (a b : AtlasTreeNode) : Prop :=
  a.x = b.x ∧ a.y = b.y ∧ a.w = b.w ∧ a.h = b.h ∧ a.layer = b.layer

/-- The geometry of a packing tree (spec, section 3: "children never overlap and
always lie within the parent's rectangle"), with the layer of a child that of its
parent. -/
inductive Good : AtlasTreeNode → Prop
  | mk (x y w h l : Int) (cs : List AtlasTreeNode) :
    (∀ c ∈ cs, Good c) →
    (∀ c ∈ cs, within c (AtlasTreeNode.mk x y w h l []) ∧ c.layer = l) →
    cs.Pairwise (fun a b => ¬ overlaps a b) →
    Good (AtlasTreeNode.mk x y w h l cs)

/-- The invariant of the atlas: every tree is a well-formed packing tree whose
layer is its index, every cached reference points to a leaf, and no two cache
entries point to the same node. -/
def AtlasInv (s : CanvasRenderer) : Prop :=
  (∀ (i : Nat) (t : AtlasTreeNode), s.m_atlas_tree[i]? = some t → Good t ∧ t.layer = (i : Int)) ∧
  (∀ e ∈ s.m_atlas_cache, ∃ n, s.nodeAt e.2 = some n ∧ n.children = []) ∧
  s.m_atlas_cache.Pairwise (fun a b => a.2 ≠ b.2)

/-! ## Theorems about `InputField` -/

/-- Claim C1, evaluated on the code: after construction, a tap on the field (touch
down inside, touch up inside) and one `Update` that receives the typed character
`a`, the text of the field is `a` and the placeholder label is still a subview of
the field. The append branch of `Update` sets the text of the label directly and
does not go through `InputField::SetText`, which is where the placeholder is
removed. -/
theorem C1_typing_keeps_placeholder :
    ∃ s, InputField.new.run monoEnv [Op.touchDownInside, Op.touchUpInside 0, Op.update 0 [97]]
        = some s ∧
      s.GetText = [97] ∧ s.m_placeholder.m_parent_view = ParentView.this := by
  norm_num [InputField.run, InputField.step, InputField.new, InputField.OnTouchDownInside,
    InputField.OnTouchUpInside, InputField.OnGotFocus, InputField.Update, Label.GetLines,
    monoEnv, monoLayout, InputField.SetCaretPos, InputField.blinkCaret,
    InputField.processInput, inputBytes, InputField.appendInput, Label.SetText,
    Label.GetText, glyphQuad, Sprite.SetOffset, Sprite.SetColor, View.AddSubview,
    InputField.GetText]
  decide

/-- Claim C2: for a field whose placeholder is attached to the field or to nothing,
after `SetText(t)` the text is `t`; the placeholder has no parent when `t` is not
empty and is a subview of the field when `t` is empty; and `SetText` of the empty
string after `SetText(t)` leaves it attached to the field. -/
theorem C2_SetText_placeholder (s : InputField) (t : Str)
    (h : s.m_placeholder.m_parent_view = ParentView.this ∨
      s.m_placeholder.m_parent_view = ParentView.null) :
    (s.SetText t).GetText = t ∧
      (t ≠ [] → (s.SetText t).m_placeholder.m_parent_view = ParentView.null) ∧
      (t = [] → (s.SetText t).m_placeholder.m_parent_view = ParentView.this) ∧
      ((s.SetText t).SetText []).m_placeholder.m_parent_view = ParentView.this := by
  rcases h with h | h <;> cases t <;>
    simp [InputField.SetText, InputField.GetText, Label.SetText, Label.GetText, h,
      View.AddSubview, View.RemoveSubview]

/-- Claim C2 at the new field and the text `hi`. -/
theorem C2_witness :
    (InputField.new.m_placeholder.m_parent_view = ParentView.this ∨
      InputField.new.m_placeholder.m_parent_view = ParentView.null) ∧
    ((InputField.new.SetText [104, 105]).GetText = [104, 105] ∧
      (([104, 105] : Str) ≠ [] →
        (InputField.new.SetText [104, 105]).m_placeholder.m_parent_view = ParentView.null) ∧
      (([104, 105] : Str) = [] →
        (InputField.new.SetText [104, 105]).m_placeholder.m_parent_view = ParentView.this) ∧
      ((InputField.new.SetText [104, 105]).SetText []).m_placeholder.m_parent_view
        = ParentView.this) :=
  ⟨Or.inl rfl, C2_SetText_placeholder InputField.new [104, 105] (Or.inl rfl)⟩

theorem SetCaretPos_neg (E : Env) (line index : Int) (s : InputField)
    (h : line < 0 ∨ index < 0) :
    s.SetCaretPos E line index = some { s with
      m_caret := { s.m_caret with m_offset := ⟨castInt s.m_label_margin.x, 0⟩ }
      m_caret_pos := ⟨line, index⟩ } := by
  simp [InputField.SetCaretPos, h, Sprite.SetOffset]

theorem vertices3_of_len {m : ViewMesh} (h : 4 ≤ m.vertices.length) :
    ∃ v, m.vertices[3]? = some v := by
  refine ⟨m.vertices[3], ?_⟩
  exact List.getElem?_eq_getElem (by omega)

theorem SetCaretPos_lastOfLine0 (E : Env) (s : InputField) (l0 : LabelLine)
    (rest : List LabelLine) (hl : s.m_label.GetLines E = l0 :: rest)
    (hq : lastGlyphIsQuad (s.m_label.GetLines E)) :
    ∃ o, s.SetCaretPos E 0 ((l0.meshes.length : Int) - 1) = some { s with
      m_caret := { s.m_caret with m_offset := o }
      m_caret_pos := ⟨0, (l0.meshes.length : Int) - 1⟩ } := by
  by_cases hm : l0.meshes = []
  · refine ⟨⟨castInt s.m_label_margin.x, 0⟩, ?_⟩
    rw [SetCaretPos_neg]
    right; simp [hm]
  · have hpos : 0 < l0.meshes.length := List.length_pos.mpr hm
    have hidx : ((l0.meshes.length : Int) - 1).toNat = l0.meshes.length - 1 := by omega
    have hlast : l0.meshes[l0.meshes.length - 1]? = some (l0.meshes.getLast hm) := by
      rw [List.getLast_eq_getElem]
      exact List.getElem?_eq_getElem (by omega)
    have h4 : 4 ≤ (l0.meshes.getLast hm).vertices.length := by
      apply hq l0 (by simp [hl]) (l0.meshes.getLast hm)
      simp [List.getLast?_eq_getLast _ hm]
    obtain ⟨v, hv⟩ := vertices3_of_len h4
    refine ⟨⟨castInt s.m_label_margin.x + v.x, 0⟩, ?_⟩
    have hneg : ¬ ((0 : Int) < 0 ∨ (l0.meshes.length : Int) - 1 < 0) := by omega
    simp [InputField.SetCaretPos, hl, hidx, hlast, hv, Sprite.SetOffset]
    intro h
    exact absurd h hm

theorem OnGotFocus_spec (E : Env) (now : ℚ) (s : InputField)
    (hq : lastGlyphIsQuad (s.m_label.GetLines E)) :
    ∃ o, s.OnGotFocus E now = some { s with
      m_caret := { s.m_caret with m_offset := o, m_parent_view := ParentView.this }
      m_caret_pos :=
        match s.m_label.GetLines E with
        | l0 :: _ => ⟨0, (l0.meshes.length : Int) - 1⟩
        | [] => ⟨-1, -1⟩
      m_caret_blink_time := now } := by
  cases hl : s.m_label.GetLines E with
  | nil =>
    refine ⟨⟨castInt s.m_label_margin.x, 0⟩, ?_⟩
    simp only [InputField.OnGotFocus]
    rw [show Label.GetLines E s.m_label = [] from hl]
    simp [SetCaretPos_neg, View.AddSubview]
  | cons l0 rest =>
    obtain ⟨o, ho⟩ := SetCaretPos_lastOfLine0 E
      { s with m_caret := { s.m_caret with m_parent_view := ParentView.this } } l0 rest hl hq
    refine ⟨o, ?_⟩
    simp only [InputField.OnGotFocus]
    rw [show Label.GetLines E s.m_label = l0 :: rest from hl]
    simp [View.AddSubview, ho]

/-- Claim C3: for an unfocused field with empty text (the last glyph mesh of line 0
of the layout of the empty text, if there is one, being a quad), touch down inside
followed by touch up inside: both handlers return `true`, the field is focused and
the caret sprite is a subview of the field. -/
theorem C3_focus_on_tap (E : Env) (now : ℚ) (s : InputField)
    (hu : s.m_focused = false) (ht : s.GetText = [])
    (hq : lastGlyphIsQuad (E.layout [])) :
    s.OnTouchDownInside.2 = true ∧
    ∃ s', s.OnTouchDownInside.1.OnTouchUpInside E now = some (s', true) ∧
      s'.m_focused = true ∧ s'.m_caret.m_parent_view = ParentView.this := by
  refine ⟨rfl, ?_⟩
  have hq' : lastGlyphIsQuad
      (({ s with m_touch_down := false, m_focused := true } : InputField).m_label.GetLines E) := by
    have : s.m_label.m_text = [] := ht
    simpa [Label.GetLines, this] using hq
  obtain ⟨o, ho⟩ := OnGotFocus_spec E now _ hq'
  have hrun : s.OnTouchDownInside.1.OnTouchUpInside E now =
      (InputField.OnGotFocus E now { s with m_touch_down := false, m_focused := true }).map
        fun s2 => (s2, true) := by
    simp [InputField.OnTouchDownInside, InputField.OnTouchUpInside, hu]
  rw [hrun, ho]
  exact ⟨_, rfl, rfl, rfl⟩

/-- Claim C3 at the new field in the single-line environment. -/
theorem C3_witness :
    InputField.new.m_focused = false ∧ InputField.new.GetText = [] ∧
    lastGlyphIsQuad (monoEnv.layout []) ∧
    ∃ s', InputField.new.OnTouchDownInside.1.OnTouchUpInside monoEnv 0 = some (s', true) ∧
      s'.m_focused = true ∧ s'.m_caret.m_parent_view = ParentView.this :=
  have hq : lastGlyphIsQuad (monoEnv.layout []) := by
    intro l0 hl0
    simp [monoEnv, monoLayout] at hl0
  ⟨rfl, rfl, hq, (C3_focus_on_tap monoEnv 0 InputField.new rfl rfl hq).2⟩

/-- Claim C4: the touch-up-outside handler returns `false`; on a focused field it
leaves the field unfocused, with the caret sprite not a subview of the field
(without a parent, when it was a subview of the field) and no touch-down pending;
on an unfocused field it only clears the pending touch-down. -/
theorem C4_touch_up_outside (s : InputField) :
    s.OnTouchUpOutside.2 = false ∧
    (s.m_focused = true →
      s.OnTouchUpOutside.1.m_focused = false ∧
      s.OnTouchUpOutside.1.m_caret.m_parent_view ≠ ParentView.this ∧
      (s.m_caret.m_parent_view = ParentView.this →
        s.OnTouchUpOutside.1.m_caret.m_parent_view = ParentView.null) ∧
      s.OnTouchUpOutside.1.m_touch_down = false) ∧
    (s.m_focused = false →
      s.OnTouchUpOutside.1 = { s with m_touch_down := false }) := by
  refine ⟨?_, ?_, ?_⟩
  · simp only [InputField.OnTouchUpOutside]; split <;> rfl
  · intro hf
    have hrun : s.OnTouchUpOutside =
        (InputField.OnLostFocus { s with m_touch_down := false, m_focused := false }, false) := by
      simp [InputField.OnTouchUpOutside, hf]
    rw [hrun]
    refine ⟨rfl, ?_, ?_, rfl⟩
    · cases h : s.m_caret.m_parent_view <;> simp [InputField.OnLostFocus, View.RemoveSubview, h]
    · intro h; simp [InputField.OnLostFocus, View.RemoveSubview, h]
  · intro hf
    simp [InputField.OnTouchUpOutside, hf]

/-- Claim C4 at the focused field. -/
theorem C4_witness :
    focusedField.m_focused = true ∧
    focusedField.OnTouchUpOutside.2 = false ∧
    focusedField.OnTouchUpOutside.1.m_focused = false ∧
    focusedField.OnTouchUpOutside.1.m_caret.m_parent_view = ParentView.null :=
  ⟨rfl, (C4_touch_up_outside focusedField).1,
    ((C4_touch_up_outside focusedField).2.1 rfl).1,
    ((C4_touch_up_outside focusedField).2.1 rfl).2.2.1 rfl⟩

theorem SetCaretPos_some {E : Env} {line index : Int} {s s' : InputField}
    (h : s.SetCaretPos E line index = some s') :
    ∃ o, s' = { s with
      m_caret := { s.m_caret with m_offset := o }
      m_caret_pos := ⟨line, index⟩ } := by
  unfold InputField.SetCaretPos at h
  split at h
  · exact ⟨_, (Option.some.inj h).symm⟩
  · simp only [Option.bind_eq_bind, Option.bind_eq_some] at h
    obtain ⟨l, -, m, -, v, -, h⟩ := h
    exact ⟨_, (Option.some.inj h).symm⟩

theorem OnGotFocus_some {E : Env} {now : ℚ} {s s' : InputField}
    (h : s.OnGotFocus E now = some s') :
    ∃ o, s' = { s with
      m_caret := { s.m_caret with m_offset := o, m_parent_view := ParentView.this }
      m_caret_pos :=
        match s.m_label.GetLines E with
        | l0 :: _ => ⟨0, (l0.meshes.length : Int) - 1⟩
        | [] => ⟨-1, -1⟩
      m_caret_blink_time := now } := by
  simp only [InputField.OnGotFocus, Option.map_eq_some'] at h
  obtain ⟨s2, h2, h⟩ := h
  cases hl : s.m_label.GetLines E with
  | nil =>
    rw [show Label.GetLines E s.m_label = [] from hl] at h2
    obtain ⟨o, rfl⟩ := SetCaretPos_some h2
    exact ⟨o, h.symm⟩
  | cons l0 rest =>
    rw [show Label.GetLines E s.m_label = l0 :: rest from hl] at h2
    obtain ⟨o, rfl⟩ := SetCaretPos_some h2
    exact ⟨o, h.symm⟩

theorem appendInput_some {E : Env} {str : Str} {s s' : InputField}
    (h : s.appendInput E str = some s') :
    ∃ o l0 rest, E.layout (s.m_label.m_text ++ str) = l0 :: rest ∧ s' = { s with
      m_label := { s.m_label with m_text := s.m_label.m_text ++ str }
      m_caret := { s.m_caret with m_offset := o }
      m_caret_pos := ⟨0, (l0.meshes.length : Int) - 1⟩ } := by
  unfold InputField.appendInput at h
  cases hl : E.layout (s.m_label.m_text ++ str) with
  | nil =>
    simp [Label.GetLines, Label.SetText, Label.GetText, hl] at h
  | cons l0 rest =>
    simp only [Label.GetLines, Label.SetText, Label.GetText, hl] at h
    obtain ⟨o, rfl⟩ := SetCaretPos_some h
    exact ⟨o, l0, rest, rfl, rfl⟩

theorem blinkCaret_frame (now : ℚ) (s : InputField) :
    (s.blinkCaret now).m_caret_pos = s.m_caret_pos ∧
    (s.blinkCaret now).m_label = s.m_label ∧
    (s.blinkCaret now).m_placeholder = s.m_placeholder ∧
    (s.blinkCaret now).m_focused = s.m_focused ∧
    (s.blinkCaret now).m_touch_down = s.m_touch_down ∧
    (s.blinkCaret now).m_caret.m_parent_view = s.m_caret.m_parent_view := by
  unfold InputField.blinkCaret
  split
  · refine ⟨rfl, rfl, rfl, rfl, rfl, ?_⟩
    cases s.m_caret_blink_show <;> rfl
  · exact ⟨rfl, rfl, rfl, rfl, rfl, rfl⟩

theorem processInput_some {E : Env} {chars : List Nat} {s s' : InputField}
    (h : s.processInput E chars = some s') :
    s' = s ∨ ∃ str, s.appendInput E str = some s' := by
  unfold InputField.processInput at h
  split at h
  · simp only at h
    split at h
    · split at h
      · exact Or.inr ⟨_, h⟩
      · split at h
        · split at h
          · split at h
            · exact Or.inr ⟨_, h⟩
            · exact Or.inl (Option.some.inj h).symm
          · exact absurd h (by simp)
        · exact Or.inl (Option.some.inj h).symm
    · exact Or.inl (Option.some.inj h).symm
  · exact Or.inl (Option.some.inj h).symm

theorem step_caretPosOk {E : Env} {op : Op} {s s' : InputField}
    (h : s.step E op = some s') (hs : caretPosOk s) : caretPosOk s' := by
  cases op with
  | setText t =>
    obtain rfl := Option.some.inj h
    unfold InputField.SetText
    simp only
    split <;> split <;> exact hs
  | setPlaceholderText t => obtain rfl := Option.some.inj h; exact hs
  | setPlaceholderTextColor c => obtain rfl := Option.some.inj h; exact hs
  | setCaretBlinkRate r => obtain rfl := Option.some.inj h; exact hs
  | touchDownInside => obtain rfl := Option.some.inj h; exact hs
  | touchUpOutside =>
    obtain rfl := Option.some.inj h
    unfold InputField.OnTouchUpOutside
    simp only
    split <;> exact hs
  | touchUpInside now =>
    simp only [InputField.step, Option.map_eq_some'] at h
    obtain ⟨⟨s1, b⟩, h, rfl⟩ := h
    unfold InputField.OnTouchUpInside at h
    split at h
    · simp only at h
      split at h
      · simp only [Option.map_eq_some'] at h
        obtain ⟨s2, h2, h⟩ := h
        obtain ⟨o, rfl⟩ := OnGotFocus_some h2
        obtain rfl := (Prod.mk.inj h).1
        unfold caretPosOk
        simp only
        split
        · right; exact ⟨rfl, by simp only; omega⟩
        · left; rfl
      · obtain rfl := (Prod.mk.inj (Option.some.inj h)).1
        exact hs
    · obtain rfl := (Prod.mk.inj (Option.some.inj h)).1
      exact hs
  | update now chars =>
    simp only [InputField.step, InputField.Update] at h
    split at h
    · rcases processInput_some h with rfl | ⟨str, ha⟩
      · unfold caretPosOk
        rw [(blinkCaret_frame now s).1]
        exact hs
      · obtain ⟨o, l0, rest, -, rfl⟩ := appendInput_some ha
        right; exact ⟨rfl, by simp only; omega⟩
    · obtain rfl := Option.some.inj h
      exact hs

theorem run_invariant {E : Env} (P : InputField → Prop)
    (hstep : ∀ s op s', s.step E op = some s' → P s → P s') :
    ∀ (ops : List Op) (s s' : InputField), s.run E ops = some s' → P s → P s' := by
  intro ops
  induction ops with
  | nil =>
    intro s s' h hs
    obtain rfl := Option.some.inj h
    exact hs
  | cons op ops ih =>
    intro s s' h hs
    simp only [InputField.run, Option.bind_eq_some] at h
    obtain ⟨s1, h1, h2⟩ := h
    exact ih s1 s' h2 (hstep s op s1 h1 hs)

theorem reachable_caretPosOk {E : Env} {s : InputField} (h : Reachable E s) :
    caretPosOk s := by
  obtain ⟨ops, h⟩ := h
  exact run_invariant caretPosOk (fun _ _ _ => step_caretPosOk) ops _ _ h (Or.inl rfl)

theorem appendInput_spec (E : Env) (str : Str) (s : InputField) (l0 : LabelLine)
    (rest : List LabelLine) (hl : E.layout (s.m_label.m_text ++ str) = l0 :: rest)
    (hq : lastGlyphIsQuad (l0 :: rest)) :
    ∃ s', s.appendInput E str = some s' ∧ s'.GetText = s.GetText ++ str ∧
      s'.m_caret_pos = ⟨0, (l0.meshes.length : Int) - 1⟩ := by
  have hl' : ({ s with m_label := s.m_label.SetText (s.m_label.GetText ++ str) } :
      InputField).m_label.GetLines E = l0 :: rest := hl
  obtain ⟨o, ho⟩ := SetCaretPos_lastOfLine0 E _ l0 rest hl' (by rw [hl']; exact hq)
  have happ : s.appendInput E str = InputField.SetCaretPos E 0 ((l0.meshes.length : Int) - 1)
      { s with m_label := s.m_label.SetText (s.m_label.GetText ++ str) } := by
    unfold InputField.appendInput
    simp only [hl']
  rw [happ, ho]
  exact ⟨_, rfl, rfl, rfl⟩

theorem processInput_eq (E : Env) (chars : List Nat) (s : InputField)
    (hc : chars ≠ []) (hne : E.decode (inputBytes chars) ≠ []) :
    s.processInput E chars =
      if s.m_caret_pos.x < 0 ∧ s.m_caret_pos.y < 0 then
        s.appendInput E (E.decode (inputBytes chars))
      else if s.m_caret_pos.x = 0 then
        match s.m_label.GetLines E with
        | l0 :: _ =>
          if s.m_caret_pos.y = (l0.meshes.length : Int) - 1 then
            s.appendInput E (E.decode (inputBytes chars))
          else some s
        | [] => none
      else some s := by
  have h1 : chars.length > 0 := List.length_pos.mpr hc
  have h2 : (E.decode (inputBytes chars)).length > 0 := List.length_pos.mpr hne
  unfold InputField.processInput
  simp only [h1, h2, if_true]

/-- Claim C5: for a focused field reachable from construction whose pending input
characters decode to a non-empty string `str`. If the caret is at the trailing
position and the layout of the new text has a line 0 (whose last glyph mesh, if
any, is a quad), `Update` returns, the text is the old text followed by `str`, and
the caret position is `(0, number of glyph meshes of line 0 of the new layout - 1)`.
If the caret is not at the trailing position (and the label has a line 0 when the
caret is on line 0), `Update` returns and leaves text and caret position unchanged. -/
theorem C5_update_input (E : Env) (s : InputField) (now : ℚ) (chars : List Nat) (str : Str)
    (hr : Reachable E s) (hf : s.m_focused = true) (hc : chars ≠ [])
    (hd : E.decode (inputBytes chars) = str) (hne : str ≠ []) :
    (atTrailingPosition (s.m_label.GetLines E) s.m_caret_pos →
      ∀ l0 rest, E.layout (s.GetText ++ str) = l0 :: rest → lastGlyphIsQuad (l0 :: rest) →
        ∃ s', s.Update E now chars = some s' ∧ s'.GetText = s.GetText ++ str ∧
          s'.m_label.GetLines E = l0 :: rest ∧
          s'.m_caret_pos = ⟨0, (l0.meshes.length : Int) - 1⟩) ∧
    (¬ atTrailingPosition (s.m_label.GetLines E) s.m_caret_pos →
      (s.m_caret_pos.x = 0 → s.m_label.GetLines E ≠ []) →
        ∃ s', s.Update E now chars = some s' ∧ s'.GetText = s.GetText ∧
          s'.m_caret_pos = s.m_caret_pos) := by
  obtain ⟨hbp, hbl, -, -, -, -⟩ := blinkCaret_frame now s
  have hU : s.Update E now chars = (s.blinkCaret now).processInput E chars := by
    simp [InputField.Update, hf]
  have hP := processInput_eq E chars (s.blinkCaret now) hc (by rw [hd]; exact hne)
  rw [hbp, hbl, hd] at hP
  have hok := reachable_caretPosOk hr
  constructor
  · intro ht l0 rest hl hq
    have hl' : E.layout ((s.blinkCaret now).m_label.m_text ++ str) = l0 :: rest := by
      rw [hbl]; exact hl
    obtain ⟨s', hs', htext, hpos⟩ := appendInput_spec E str (s.blinkCaret now) l0 rest hl' hq
    have hgt : (s.blinkCaret now).GetText = s.GetText := by
      simp [InputField.GetText, hbl]
    refine ⟨s', ?_, by rw [htext, hgt], ?_, hpos⟩
    · rw [hU, hP]
      rcases ht with ht | ⟨hx, l, hl0, hy⟩
      · have : s.m_caret_pos.x < 0 ∧ s.m_caret_pos.y < 0 := by rw [ht]; decide
        rw [if_pos this]; exact hs'
      · have hn : ¬ (s.m_caret_pos.x < 0 ∧ s.m_caret_pos.y < 0) := by omega
        rw [if_neg hn, if_pos hx]
        cases hlines : s.m_label.GetLines E with
        | nil => rw [hlines] at hl0; simp at hl0
        | cons a as =>
          rw [hlines] at hl0
          simp only [List.head?_cons, Option.mem_def, Option.some.injEq] at hl0
          subst hl0
          simp only [hy, if_true]
          exact hs'
    · have : s'.m_label.m_text = s.m_label.m_text ++ str := by
        have := htext; rw [hgt] at this; exact this
      simp only [Label.GetLines, this]
      exact hl
  · intro ht hline
    refine ⟨s.blinkCaret now, ?_, by simp [InputField.GetText, hbl], hbp⟩
    rw [hU, hP]
    have hn : ¬ (s.m_caret_pos.x < 0 ∧ s.m_caret_pos.y < 0) := by
      intro hneg
      rcases hok with h | ⟨hx, -⟩
      · exact ht (Or.inl h)
      · omega
    rw [if_neg hn]
    by_cases hx : s.m_caret_pos.x = 0
    · rw [if_pos hx]
      cases hlines : s.m_label.GetLines E with
      | nil => exact absurd hlines (hline hx)
      | cons a as =>
        have hy : ¬ s.m_caret_pos.y = (a.meshes.length : Int) - 1 := by
          intro hy
          exact ht (Or.inr ⟨hx, a, by simp [hlines], hy⟩)
        simp only [hy, if_false]
    · rw [if_neg hx]

theorem focusedField_reachable : Reachable monoEnv focusedField := by
  refine ⟨[Op.touchDownInside, Op.touchUpInside 0], ?_⟩
  norm_num [InputField.run, InputField.step, InputField.new, InputField.OnTouchDownInside,
    InputField.OnTouchUpInside, InputField.OnGotFocus, Label.GetLines,
    monoEnv, monoLayout, InputField.SetCaretPos, Sprite.SetOffset, View.AddSubview,
    focusedField]
  decide

/-- Claim C5 at the focused empty field, typing `a`. -/
theorem C5_witness :
    Reachable monoEnv focusedField ∧ focusedField.m_focused = true ∧ ([97] : List Nat) ≠ [] ∧
    monoEnv.decode (inputBytes [97]) = [97] ∧
    ∃ s', focusedField.Update monoEnv 1 [97] = some s' ∧ s'.GetText = [97] ∧
      s'.m_caret_pos = ⟨0, 0⟩ :=
  ⟨focusedField_reachable, rfl, by decide, by decide,
    by
      obtain ⟨s', h1, h2, -, h4⟩ :=
        (C5_update_input monoEnv focusedField 1 [97] [97] focusedField_reachable rfl
          (by decide) (by decide) (by decide)).1 (Or.inl rfl) ⟨[glyphQuad 0]⟩ [] (by decide)
          (by
            intro l0 hl0 m hm
            simp only [List.head?_cons, Option.mem_def, Option.some.injEq] at hl0
            subst hl0
            simp only [List.getLast?_singleton, Option.mem_def, Option.some.injEq] at hm
            subst hm
            decide)
      exact ⟨s', h1, h2, h4⟩⟩

/-- Claim C6 fails for a layout of several lines: with the text `ab` laid out on two
lines of one glyph each, `OnGotFocus` puts the caret at `(0, 0)`, the end of line 0,
while the end of the text is `(1, 0)`. -/
theorem C6_line0_not_end_of_text :
    ((InputField.new.SetText [97, 98]).OnGotFocus wrapEnv 0).map (fun s => s.m_caret_pos)
      = some ⟨0, 0⟩ ∧
    endOfText ((InputField.new.SetText [97, 98]).m_label.GetLines wrapEnv) = ⟨1, 0⟩ := by
  constructor
  · decide
  · decide

/-- Claim C6, amended: `OnGotFocus` at time `now` (the last glyph mesh of line 0, if
any, being a quad) returns with the caret attached to the field, the caret position
`(0, number of glyph meshes of line 0 - 1)` when the label has a line and `(-1, -1)`
when it has none, which is the end of the text when the layout has at most one
line, and the blink timer equal to `now`. -/
theorem C6_OnGotFocus (E : Env) (now : ℚ) (s : InputField)
    (hq : lastGlyphIsQuad (s.m_label.GetLines E)) :
    ∃ s', s.OnGotFocus E now = some s' ∧
      s'.m_caret.m_parent_view = ParentView.this ∧
      s'.m_caret_pos =
        (match s.m_label.GetLines E with
         | l0 :: _ => ⟨0, (l0.meshes.length : Int) - 1⟩
         | [] => ⟨-1, -1⟩) ∧
      ((s.m_label.GetLines E).length ≤ 1 → s'.m_caret_pos = endOfText (s.m_label.GetLines E)) ∧
      s'.m_caret_blink_time = now := by
  obtain ⟨o, ho⟩ := OnGotFocus_spec E now s hq
  rw [ho]
  refine ⟨_, rfl, rfl, rfl, ?_, rfl⟩
  intro hlen
  cases hl : s.m_label.GetLines E with
  | nil => simp [endOfText]
  | cons l0 rest =>
    rw [hl] at hlen
    have : rest = [] := by
      cases rest with
      | nil => rfl
      | cons a as => simp at hlen
    subst this
    simp [endOfText]

/-- Claim C6, amended, at the field with text `ab` in the single-line environment. -/
theorem C6_witness :
    lastGlyphIsQuad ((InputField.new.SetText [97, 98]).m_label.GetLines monoEnv) ∧
    ∃ s', (InputField.new.SetText [97, 98]).OnGotFocus monoEnv 3 = some s' ∧
      s'.m_caret.m_parent_view = ParentView.this ∧ s'.m_caret_pos = ⟨0, 1⟩ ∧
      s'.m_caret_blink_time = 3 :=
  have hq : lastGlyphIsQuad ((InputField.new.SetText [97, 98]).m_label.GetLines monoEnv) := by
    intro l0 hl0 m hm
    have hl : l0 = ⟨[glyphQuad 0, glyphQuad 1]⟩ := by
      have : (InputField.new.SetText [97, 98]).m_label.GetLines monoEnv
          = [⟨[glyphQuad 0, glyphQuad 1]⟩] := by decide
      rw [this] at hl0
      simpa using hl0.symm
    subst hl
    have : m = glyphQuad 1 := by simpa using hm.symm
    subst this
    decide
  ⟨hq, by
    obtain ⟨s', h1, h2, h3, -, h5⟩ := C6_OnGotFocus monoEnv 3 (InputField.new.SetText [97, 98]) hq
    exact ⟨s', h1, h2, h3, h5⟩⟩

theorem blinkCaret_blinkSync (now : ℚ) (s : InputField) (hs : blinkSync s) :
    blinkSync (s.blinkCaret now) := by
  unfold InputField.blinkCaret
  split
  · unfold blinkSync
    cases h : s.m_caret_blink_show <;> simp [Sprite.SetColor]
  · exact hs

theorem step_blinkSync {E : Env} {op : Op} {s s' : InputField}
    (h : s.step E op = some s') (hs : blinkSync s) : blinkSync s' := by
  cases op with
  | setText t =>
    obtain rfl := Option.some.inj h
    unfold InputField.SetText
    simp only
    split <;> split <;> exact hs
  | setPlaceholderText t => obtain rfl := Option.some.inj h; exact hs
  | setPlaceholderTextColor c => obtain rfl := Option.some.inj h; exact hs
  | setCaretBlinkRate r => obtain rfl := Option.some.inj h; exact hs
  | touchDownInside => obtain rfl := Option.some.inj h; exact hs
  | touchUpOutside =>
    obtain rfl := Option.some.inj h
    unfold InputField.OnTouchUpOutside
    simp only
    split <;> exact hs
  | touchUpInside now =>
    simp only [InputField.step, Option.map_eq_some'] at h
    obtain ⟨⟨s1, b⟩, h, rfl⟩ := h
    unfold InputField.OnTouchUpInside at h
    split at h
    · simp only at h
      split at h
      · simp only [Option.map_eq_some'] at h
        obtain ⟨s2, h2, h⟩ := h
        obtain ⟨o, rfl⟩ := OnGotFocus_some h2
        obtain rfl := (Prod.mk.inj h).1
        exact hs
      · obtain rfl := (Prod.mk.inj (Option.some.inj h)).1
        exact hs
    · obtain rfl := (Prod.mk.inj (Option.some.inj h)).1
      exact hs
  | update now chars =>
    simp only [InputField.step, InputField.Update] at h
    split at h
    · have hb := blinkCaret_blinkSync now s hs
      rcases processInput_some h with rfl | ⟨str, ha⟩
      · exact hb
      · obtain ⟨o, l0, rest, -, rfl⟩ := appendInput_some ha
        exact hb
    · obtain rfl := Option.some.inj h
      exact hs

theorem reachable_blinkSync {E : Env} {s : InputField} (h : Reachable E s) :
    blinkSync s := by
  obtain ⟨ops, h⟩ := h
  exact run_invariant blinkSync (fun _ _ _ => step_blinkSync) ops _ _ h rfl

theorem processInput_blink_frame {E : Env} {chars : List Nat} {s s' : InputField}
    (h : s.processInput E chars = some s') :
    s'.m_caret.m_color = s.m_caret.m_color ∧ s'.m_caret_blink_show = s.m_caret_blink_show ∧
      s'.m_caret_blink_time = s.m_caret_blink_time := by
  rcases processInput_some h with rfl | ⟨str, ha⟩
  · exact ⟨rfl, rfl, rfl⟩
  · obtain ⟨o, l0, rest, -, rfl⟩ := appendInput_some ha
    exact ⟨rfl, rfl, rfl⟩

/-- Claim C7: for a focused field reachable from construction, `Update` with an
empty input queue returns, and for every result of `Update` at time `now`: when
`now - m_caret_blink_time > m_caret_blink_rate` the blink flag is negated, the
caret colour is black with alpha 0 if the flag was set and alpha 1 if it was not
(the alpha of the caret goes from 1 to 0 or from 0 to 1) and the timer is `now`;
otherwise colour, flag and timer are unchanged. -/
theorem C7_caret_blink (E : Env) (s : InputField) (now : ℚ) (chars : List Nat)
    (hr : Reachable E s) (hf : s.m_focused = true) :
    (∃ s0, s.Update E now [] = some s0) ∧
    ∀ s', s.Update E now chars = some s' →
      (now - s.m_caret_blink_time > s.m_caret_blink_rate →
        s'.m_caret_blink_show = !s.m_caret_blink_show ∧
        s'.m_caret.m_color = ⟨0, 0, 0, if s.m_caret_blink_show then 0 else 1⟩ ∧
        s'.m_caret.m_color.a = 1 - s.m_caret.m_color.a ∧
        s'.m_caret_blink_time = now) ∧
      (now - s.m_caret_blink_time ≤ s.m_caret_blink_rate →
        s'.m_caret.m_color = s.m_caret.m_color ∧
        s'.m_caret_blink_show = s.m_caret_blink_show ∧
        s'.m_caret_blink_time = s.m_caret_blink_time) := by
  have hU : ∀ cs, s.Update E now cs = (s.blinkCaret now).processInput E cs := by
    intro cs; simp [InputField.Update, hf]
  constructor
  · exact ⟨s.blinkCaret now, by rw [hU]; simp [InputField.processInput]⟩
  · intro s' h
    rw [hU] at h
    obtain ⟨hc, hshow, htime⟩ := processInput_blink_frame h
    rw [hc, hshow, htime]
    have hsync : s.m_caret.m_color = ⟨0, 0, 0, if s.m_caret_blink_show then 1 else 0⟩ :=
      reachable_blinkSync hr
    constructor
    · intro hgt
      have hb : s.blinkCaret now = { s with
          m_caret :=
            if s.m_caret_blink_show then s.m_caret.SetColor ⟨0, 0, 0, 0⟩
            else s.m_caret.SetColor ⟨0, 0, 0, 1⟩
          m_caret_blink_show := !s.m_caret_blink_show
          m_caret_blink_time := now } := by
        unfold InputField.blinkCaret
        rw [if_pos hgt]
      rw [hb, hsync]
      cases s.m_caret_blink_show <;> simp [Sprite.SetColor]
    · intro hle
      have hb : s.blinkCaret now = s := by
        unfold InputField.blinkCaret
        rw [if_neg (not_lt.mpr hle)]
      rw [hb]
      exact ⟨rfl, rfl, rfl⟩

/-- Claim C7 at the focused field, one second after it got the focus (the blink rate
is half a second): the caret is hidden and the timer restarts. -/
theorem C7_witness :
    Reachable monoEnv focusedField ∧ focusedField.m_focused = true ∧
    ∃ s', focusedField.Update monoEnv 1 [] = some s' ∧
      s'.m_caret_blink_show = false ∧ s'.m_caret.m_color = ⟨0, 0, 0, 0⟩ ∧
      s'.m_caret_blink_time = 1 :=
  ⟨focusedField_reachable, rfl, by
    obtain ⟨⟨s0, h0⟩, h⟩ := C7_caret_blink monoEnv focusedField 1 [] focusedField_reachable rfl
    have hgt : (1 : ℚ) - focusedField.m_caret_blink_time > focusedField.m_caret_blink_rate := by
      norm_num [focusedField, InputField.new]
    obtain ⟨h1, h2, -, h4⟩ := (h s0 h0).1 hgt
    exact ⟨s0, h0, h1, h2, h4⟩⟩

/-- Claim C8: on an unfocused field `Update` returns the field unchanged, whatever
the time and the input queue. -/
theorem C8_update_unfocused (E : Env) (s : InputField) (now : ℚ) (chars : List Nat)
    (hu : s.m_focused = false) : s.Update E now chars = some s := by
  simp [InputField.Update, hu]

/-- Claim C8 at the new field. -/
theorem C8_witness :
    InputField.new.m_focused = false ∧ InputField.new.Update monoEnv 7 [97, 98] = some InputField.new :=
  ⟨rfl, C8_update_unfocused monoEnv InputField.new 7 [97, 98] rfl⟩

/-- Claim C9: `SetCaretPos(line, index)` with `line` and `index` non-negative and
naming a glyph mesh with a vertex 3 sets the offset of the caret to
`((int) m_label_margin.x + x of that vertex, 0)`; with `line` or `index` negative it
sets the offset to `((int) m_label_margin.x, 0)`; in both cases the caret position
becomes `(line, index)` and nothing else changes. -/
theorem C9_SetCaretPos (E : Env) (s : InputField) (line index : Int) :
    (∀ l m v, 0 ≤ line → 0 ≤ index →
      (s.m_label.GetLines E)[line.toNat]? = some l → l.meshes[index.toNat]? = some m →
      m.vertices[3]? = some v →
      s.SetCaretPos E line index = some { s with
        m_caret := { s.m_caret with m_offset := ⟨castInt s.m_label_margin.x + v.x, 0⟩ }
        m_caret_pos := ⟨line, index⟩ }) ∧
    (line < 0 ∨ index < 0 →
      s.SetCaretPos E line index = some { s with
        m_caret := { s.m_caret with m_offset := ⟨castInt s.m_label_margin.x, 0⟩ }
        m_caret_pos := ⟨line, index⟩ }) := by
  constructor
  · intro l m v h0 h1 hl hm hv
    have hn : ¬ (line < 0 ∨ index < 0) := by omega
    simp [InputField.SetCaretPos, hn, hl, hm, hv, Sprite.SetOffset]
  · intro h
    exact SetCaretPos_neg E line index s h

/-- Claim C9 at the field with text `ab`: the caret after the second glyph is at
`10 + 16`, and at the margin `10` for the position `(-1, -1)`. -/
theorem C9_witness :
    ((InputField.new.SetText [97, 98]).SetCaretPos monoEnv 0 1).map
        (fun s => (s.m_caret.m_offset, s.m_caret_pos))
      = some (⟨10 + 16, 0⟩, ⟨0, 1⟩) ∧
    ((InputField.new.SetText [97, 98]).SetCaretPos monoEnv (-1) (-1)).map
        (fun s => (s.m_caret.m_offset, s.m_caret_pos))
      = some (⟨10, 0⟩, ⟨-1, -1⟩) := by
  have h := C9_SetCaretPos monoEnv (InputField.new.SetText [97, 98])
  constructor
  · rw [(h 0 1).1 ⟨[glyphQuad 0, glyphQuad 1]⟩ (glyphQuad 1) ⟨16, 0⟩ (by decide) (by decide)
      (by decide) (by decide) (by decide)]
    decide
  · rw [(h (-1) (-1)).2 (by decide)]
    decide

theorem step_caretAttachOk {E : Env} {op : Op} {s s' : InputField}
    (h : s.step E op = some s') (hs : caretAttachOk s) : caretAttachOk s' := by
  cases op with
  | setText t =>
    obtain rfl := Option.some.inj h
    unfold InputField.SetText
    simp only
    split <;> split <;> exact hs
  | setPlaceholderText t => obtain rfl := Option.some.inj h; exact hs
  | setPlaceholderTextColor c => obtain rfl := Option.some.inj h; exact hs
  | setCaretBlinkRate r => obtain rfl := Option.some.inj h; exact hs
  | touchDownInside => obtain rfl := Option.some.inj h; exact hs
  | touchUpOutside =>
    obtain rfl := Option.some.inj h
    unfold InputField.OnTouchUpOutside
    simp only
    split
    · rename_i hf
      rcases hs with ⟨-, hp⟩ | ⟨hu, -⟩
      · right
        exact ⟨rfl, by simp [InputField.OnLostFocus, View.RemoveSubview, hp]⟩
      · have hf' : s.m_focused = true := hf
        rw [hu] at hf'
        exact absurd hf' (by simp)
    · exact hs
  | touchUpInside now =>
    simp only [InputField.step, Option.map_eq_some'] at h
    obtain ⟨⟨s1, b⟩, h, rfl⟩ := h
    unfold InputField.OnTouchUpInside at h
    split at h
    · simp only at h
      split at h
      · simp only [Option.map_eq_some'] at h
        obtain ⟨s2, h2, h⟩ := h
        obtain ⟨o, rfl⟩ := OnGotFocus_some h2
        obtain rfl := (Prod.mk.inj h).1
        left
        exact ⟨rfl, rfl⟩
      · obtain rfl := (Prod.mk.inj (Option.some.inj h)).1
        exact hs
    · obtain rfl := (Prod.mk.inj (Option.some.inj h)).1
      exact hs
  | update now chars =>
    simp only [InputField.step, InputField.Update] at h
    split at h
    · obtain ⟨-, -, -, hbf, -, hbp⟩ := blinkCaret_frame now s
      have hb : caretAttachOk (s.blinkCaret now) := by
        unfold caretAttachOk
        rw [hbf, hbp]
        exact hs
      rcases processInput_some h with rfl | ⟨str, ha⟩
      · exact hb
      · obtain ⟨o, l0, rest, -, rfl⟩ := appendInput_some ha
        exact hb
    · obtain rfl := Option.some.inj h
      exact hs

theorem reachable_caretAttachOk {E : Env} {s : InputField} (h : Reachable E s) :
    caretAttachOk s := by
  obtain ⟨ops, h⟩ := h
  exact run_invariant caretAttachOk (fun _ _ _ => step_caretAttachOk) ops _ _ h
    (Or.inr ⟨rfl, rfl⟩)

/-- Claim C11: in every state reachable from construction the caret sprite is a
subview of the field if and only if the field is focused. An unfocused field has a
caret without parent, so `OnGotFocus` (run by the touch-up-inside handler only on
an unfocused field) never adds a caret that is attached; a focused field has the
caret as a subview, so `OnLostFocus` (run by the touch-up-outside handler only on a
focused field) never removes a caret that is absent. -/
theorem C11_caret_attached_iff_focused (E : Env) (s : InputField) (hr : Reachable E s) :
    (s.m_caret.m_parent_view = ParentView.this ↔ s.m_focused = true) ∧
    (s.m_focused = false → s.m_caret.m_parent_view = ParentView.null) ∧
    (s.m_focused = true → s.m_caret.m_parent_view = ParentView.this) := by
  rcases reachable_caretAttachOk hr with ⟨hf, hp⟩ | ⟨hf, hp⟩
  · exact ⟨⟨fun _ => hf, fun _ => hp⟩, fun h => by rw [hf] at h; exact absurd h (by simp),
      fun _ => hp⟩
  · refine ⟨⟨fun h => ?_, fun h => ?_⟩, fun _ => hp, fun h => ?_⟩
    · rw [hp] at h; exact absurd h (by simp)
    · rw [hf] at h; exact absurd h (by simp)
    · rw [hf] at h; exact absurd h (by simp)

/-- Claim C11 at the focused field: it is reachable, focused, and its caret is a
subview of the field. -/
theorem C11_witness :
    Reachable monoEnv focusedField ∧ focusedField.m_focused = true ∧
    focusedField.m_caret.m_parent_view = ParentView.this :=
  ⟨focusedField_reachable, rfl,
    (C11_caret_attached_iff_focused monoEnv focusedField focusedField_reachable).2.2 rfl⟩

theorem clearedField_reachable : Reachable monoEnv clearedField := by
  refine ⟨[Op.setText [97, 98], Op.touchDownInside, Op.touchUpInside 0, Op.setText []], ?_⟩
  rfl

/-- Claim C12, evaluated on the code: after construction, `SetText("ab")`, a tap and
`SetText("")`, the field is focused with the caret at `(0, 1)` and its label has no
line; an `Update` that receives the typed character `a` then evaluates
`GetLines()[0]` of an empty vector in the trailing-position test. -/
theorem C12_update_reads_missing_line0 :
    Reachable monoEnv clearedField ∧ clearedField.m_focused = true ∧
    clearedField.m_caret_pos = ⟨0, 1⟩ ∧ clearedField.m_label.GetLines monoEnv = [] ∧
    clearedField.Update monoEnv 0 [97] = none := by
  refine ⟨clearedField_reachable, rfl, rfl, by decide, ?_⟩
  norm_num [InputField.Update, InputField.blinkCaret, InputField.processInput, clearedField,
    InputField.new, inputBytes, monoEnv, monoLayout, Label.GetLines]

/-- Claim C13: on a field with no touch-down pending, or already focused, the
touch-up-inside handler returns `true` and changes nothing but the pending
touch-down, which it clears: focus flag, caret attachment, caret position and blink
timer are unchanged. In every case a result of the handler has the flag `true` and
no touch-down pending, and the handler returns whenever the last glyph mesh of
line 0, if any, is a quad. -/
theorem C13_touch_up_inside (E : Env) (now : ℚ) (s : InputField) :
    (s.m_touch_down = false ∨ s.m_focused = true →
      s.OnTouchUpInside E now = some ({ s with m_touch_down := false }, true)) ∧
    (∀ r, s.OnTouchUpInside E now = some r → r.2 = true ∧ r.1.m_touch_down = false) ∧
    (lastGlyphIsQuad (s.m_label.GetLines E) → ∃ r, s.OnTouchUpInside E now = some r) := by
  refine ⟨?_, ?_, ?_⟩
  · intro h
    unfold InputField.OnTouchUpInside
    cases htd : s.m_touch_down with
    | false =>
      simp only [Bool.false_eq_true, if_false]
      have : ({ s with m_touch_down := false } : InputField) = s := by
        cases s; simp only at htd; subst htd; rfl
      rw [this]
    | true =>
      rcases h with h | h
      · rw [htd] at h; exact absurd h (by simp)
      · simp [h]
  · intro r hr
    unfold InputField.OnTouchUpInside at hr
    split at hr
    · simp only at hr
      split at hr
      · simp only [Option.map_eq_some'] at hr
        obtain ⟨s2, h2, rfl⟩ := hr
        obtain ⟨o, rfl⟩ := OnGotFocus_some h2
        exact ⟨rfl, rfl⟩
      · obtain rfl := Option.some.inj hr
        exact ⟨rfl, rfl⟩
    · rename_i htd
      obtain rfl := Option.some.inj hr
      exact ⟨rfl, by simpa using htd⟩
  · intro hq
    unfold InputField.OnTouchUpInside
    split
    · simp only
      split
      · obtain ⟨o, ho⟩ := OnGotFocus_spec E now
          { s with m_touch_down := false, m_focused := true } hq
        rw [ho]
        exact ⟨_, rfl⟩
      · exact ⟨_, rfl⟩
    · exact ⟨_, rfl⟩

/-- Claim C13 at the focused field with a touch-down pending: the handler returns
`true` and only clears the pending touch-down. -/
theorem C13_witness :
    focusedField.OnTouchDownInside.1.m_focused = true ∧
    focusedField.OnTouchDownInside.1.OnTouchUpInside monoEnv 5 = some (focusedField, true) :=
  ⟨rfl, (C13_touch_up_inside monoEnv 5 focusedField.OnTouchDownInside.1).1 (Or.inr rfl)⟩

/-- Claim C14: in every state reachable from construction the alpha of the caret is
1 when `m_caret_blink_show` is set and 0 when it is not. For such a state that is
focused with the caret hidden (the last glyph mesh of line 0 of its label, if any,
being a quad): touch up outside, touch down inside and touch up inside at time
`now` return a focused field whose caret is a subview of the field with alpha 0,
the flag still unset, and the blink timer `now`. -/
theorem C14_caret_alpha (E : Env) (now : ℚ) (s : InputField) (hr : Reachable E s) :
    s.m_caret.m_color.a = (if s.m_caret_blink_show then 1 else 0) ∧
    (s.m_focused = true → s.m_caret_blink_show = false →
      lastGlyphIsQuad (s.m_label.GetLines E) →
      s.OnTouchUpOutside.1.m_focused = false ∧
      s.OnTouchUpOutside.1.m_caret.m_parent_view = ParentView.null ∧
      ∃ s', s.OnTouchUpOutside.1.OnTouchDownInside.1.OnTouchUpInside E now = some (s', true) ∧
        s'.m_focused = true ∧ s'.m_caret.m_parent_view = ParentView.this ∧
        s'.m_caret.m_color.a = 0 ∧ s'.m_caret_blink_show = false ∧
        s'.m_caret_blink_time = now) := by
  have hsync : s.m_caret.m_color = ⟨0, 0, 0, if s.m_caret_blink_show then 1 else 0⟩ :=
    reachable_blinkSync hr
  refine ⟨by rw [hsync], ?_⟩
  intro hf hshow hq
  have hattach : s.m_caret.m_parent_view = ParentView.this := by
    rcases reachable_caretAttachOk hr with ⟨-, hp⟩ | ⟨hu, -⟩
    · exact hp
    · rw [hf] at hu; exact absurd hu (by simp)
  have hout : s.OnTouchUpOutside.1 =
      InputField.OnLostFocus { s with m_touch_down := false, m_focused := false } := by
    simp [InputField.OnTouchUpOutside, hf]
  rw [hout]
  refine ⟨rfl, by simp [InputField.OnLostFocus, View.RemoveSubview, hattach], ?_⟩
  have hup : (InputField.OnLostFocus
        { s with m_touch_down := false, m_focused := false }).OnTouchDownInside.1.OnTouchUpInside
        E now =
      (InputField.OnGotFocus E now
        { InputField.OnLostFocus { s with m_touch_down := false, m_focused := false } with
          m_touch_down := false, m_focused := true }).map fun s2 => (s2, true) := by
    simp [InputField.OnTouchDownInside, InputField.OnTouchUpInside, InputField.OnLostFocus]
  obtain ⟨o, ho⟩ := OnGotFocus_spec E now
    { InputField.OnLostFocus { s with m_touch_down := false, m_focused := false } with
      m_touch_down := false, m_focused := true } hq
  rw [hup, ho]
  refine ⟨_, rfl, rfl, rfl, ?_, hshow, rfl⟩
  show s.m_caret.m_color.a = 0
  rw [hsync, hshow]
  rfl

theorem hiddenCaretField_reachable : Reachable monoEnv hiddenCaretField := by
  refine ⟨[Op.touchDownInside, Op.touchUpInside 0, Op.update 1 []], ?_⟩
  norm_num [InputField.run, InputField.step, InputField.new, InputField.OnTouchDownInside,
    InputField.OnTouchUpInside, InputField.OnGotFocus, Label.GetLines,
    monoEnv, monoLayout, InputField.SetCaretPos, Sprite.SetOffset, View.AddSubview,
    InputField.Update, InputField.blinkCaret, InputField.processInput, Sprite.SetColor,
    focusedField, hiddenCaretField]
  decide

/-- Claim C14 at the focused field with a hidden caret: its alpha is 0, and after
losing and regaining the focus at time 2 the caret is attached with alpha 0. -/
theorem C14_witness :
    Reachable monoEnv hiddenCaretField ∧ hiddenCaretField.m_caret.m_color.a = 0 ∧
    ∃ s', hiddenCaretField.OnTouchUpOutside.1.OnTouchDownInside.1.OnTouchUpInside monoEnv 2
        = some (s', true) ∧
      s'.m_caret.m_parent_view = ParentView.this ∧ s'.m_caret.m_color.a = 0 ∧
      s'.m_caret_blink_time = 2 :=
  have h := C14_caret_alpha monoEnv 2 hiddenCaretField hiddenCaretField_reachable
  ⟨hiddenCaretField_reachable, rfl, by
    obtain ⟨-, -, s', h1, -, h3, h4, -, h6⟩ := h.2 rfl rfl (by
      intro l0 hl0
      simp [Label.GetLines, monoEnv, monoLayout, hiddenCaretField, focusedField,
        InputField.new] at hl0)
    exact ⟨s', h1, h3, h4, h6⟩⟩

/-! ## Theorems about the atlas -/

theorem overlaps_symm {a b : AtlasTreeNode} (h : overlaps a b) : overlaps b a := by
  unfold overlaps at *
  omega

theorem not_overlaps_of_within {a b c d : AtlasTreeNode} (hcd : ¬ overlaps c d)
    (ha : within a c) (hb : within b d) : ¬ overlaps a b := by
  unfold overlaps within at *
  omega

theorem within_trans {a b c : AtlasTreeNode} (h1 : within a b) (h2 : within b c) :
    within a c := by
  unfold within at *
  omega

theorem within_refl (a : AtlasTreeNode) : within a a := by
  unfold within
  omega

theorem descend_nil (t : AtlasTreeNode) : t.descend [] = some t := by
  cases t; rfl

theorem descend_cons (t : AtlasTreeNode) (i : Nat) (p : List Nat) :
    t.descend (i :: p) = (t.children[i]?).bind fun c => c.descend p := by
  cases t with
  | mk x y w h l cs =>
    simp only [AtlasTreeNode.descend, AtlasTreeNode.children]
    cases cs[i]? <;> rfl

theorem descend_append (t : AtlasTreeNode) (p q : List Nat) :
    t.descend (p ++ q) = (t.descend p).bind fun n => n.descend q := by
  induction p generalizing t with
  | nil => simp [descend_nil]
  | cons i p ih =>
    simp only [List.cons_append, descend_cons]
    cases t.children[i]? with
    | none => rfl
    | some c => simp [ih]

theorem descend_leaf {n : AtlasTreeNode} (hn : n.children = []) (i : Nat) (rest : List Nat) :
    n.descend (i :: rest) = none := by
  simp [descend_cons, hn]

theorem Good.children {t : AtlasTreeNode} (h : Good t) :
    (∀ c ∈ t.children, Good c ∧ within c t ∧ c.layer = t.layer) ∧
      t.children.Pairwise (fun a b => ¬ overlaps a b) := by
  cases h with
  | mk x y w h l cs h1 h2 h3 => exact ⟨fun c hc => ⟨h1 c hc, h2 c hc⟩, h3⟩

theorem Good_descend {t n : AtlasTreeNode} {p : List Nat} (ht : Good t)
    (h : t.descend p = some n) : Good n ∧ within n t ∧ n.layer = t.layer := by
  induction p generalizing t with
  | nil =>
    rw [descend_nil] at h
    obtain rfl := Option.some.inj h
    exact ⟨ht, within_refl _, rfl⟩
  | cons i p ih =>
    rw [descend_cons] at h
    cases hc : t.children[i]? with
    | none => simp [hc] at h
    | some c =>
      simp only [hc, Option.some_bind] at h
      obtain ⟨hg, hw, hl⟩ := ht.children.1 c (List.getElem?_mem hc)
      obtain ⟨h1, h2, h3⟩ := ih hg h
      exact ⟨h1, within_trans h2 hw, h3.trans hl⟩

theorem pairwise_getElem? {α : Type} {R : α → α → Prop} (hsymm : ∀ a b, R a b → R b a)
    {l : List α} (h : l.Pairwise R) {i j : Nat} {a b : α} (hij : i ≠ j)
    (ha : l[i]? = some a) (hb : l[j]? = some b) : R a b := by
  rw [List.pairwise_iff_getElem] at h
  obtain ⟨hi, rfl⟩ := List.getElem?_eq_some.mp ha
  obtain ⟨hj, rfl⟩ := List.getElem?_eq_some.mp hb
  rcases Nat.lt_or_gt_of_ne hij with hlt | hgt
  · exact h i j hi hj hlt
  · exact hsymm _ _ (h j i hj hi hgt)

theorem leaves_disjoint {t a b : AtlasTreeNode} {p q : List Nat} (ht : Good t)
    (hpq : p ≠ q) (ha : t.descend p = some a) (hal : a.children = [])
    (hb : t.descend q = some b) (hbl : b.children = []) : ¬ overlaps a b := by
  induction p generalizing t q with
  | nil =>
    rw [descend_nil] at ha
    obtain rfl := Option.some.inj ha
    cases q with
    | nil => exact absurd rfl hpq
    | cons j q => rw [descend_leaf hal] at hb; exact absurd hb (by simp)
  | cons i p ih =>
    cases q with
    | nil =>
      rw [descend_nil] at hb
      obtain rfl := Option.some.inj hb
      rw [descend_leaf hbl] at ha; exact absurd ha (by simp)
    | cons j q =>
      rw [descend_cons] at ha hb
      cases hc : t.children[i]? with
      | none => simp [hc] at ha
      | some c =>
        cases hd : t.children[j]? with
        | none => simp [hd] at hb
        | some d =>
          simp only [hc, hd, Option.some_bind] at ha hb
          obtain ⟨hgc, -, -⟩ := ht.children.1 c (List.getElem?_mem hc)
          obtain ⟨hgd, -, -⟩ := ht.children.1 d (List.getElem?_mem hd)
          by_cases hij : i = j
          · subst hij
            rw [hc] at hd
            obtain rfl := Option.some.inj hd
            exact ih hgc (fun h => hpq (by rw [h])) ha hb
          · have hcd : ¬ overlaps c d :=
              pairwise_getElem? (R := fun a b => ¬ overlaps a b)
                (fun _ _ h h' => h (overlaps_symm h')) ht.children.2 hij hc hd
            exact not_overlaps_of_within hcd (Good_descend hgc ha).2.1 (Good_descend hgd hb).2.1

theorem update_nil (f : AtlasTreeNode → AtlasTreeNode) (t : AtlasTreeNode) :
    t.update f [] = f t := by
  cases t; rfl

theorem update_cons (f : AtlasTreeNode → AtlasTreeNode) (i : Nat) (p : List Nat)
    (x y w h l : Int) (cs : List AtlasTreeNode) :
    (AtlasTreeNode.mk x y w h l cs).update f (i :: p) =
      AtlasTreeNode.mk x y w h l (cs.modify (AtlasTreeNode.update f p) i) := rfl

theorem sameRegion_refl (a : AtlasTreeNode) : sameRegion a a := ⟨rfl, rfl, rfl, rfl, rfl⟩

theorem overlaps_congr {a a' b b' : AtlasTreeNode} (ha : sameRegion a' a)
    (hb : sameRegion b' b) (h : ¬ overlaps a b) : ¬ overlaps a' b' := by
  unfold overlaps sameRegion at *
  omega

theorem within_congr {a a' n n' : AtlasTreeNode} (ha : sameRegion a' a)
    (hn : sameRegion n' n) (h : within a n) : within a' n' := by
  unfold within sameRegion at *
  omega

theorem sameRegion_update (f : AtlasTreeNode → AtlasTreeNode) (p : List Nat)
    (t : AtlasTreeNode) (hf : ∀ n, t.descend p = some n → sameRegion (f n) n) :
    sameRegion (t.update f p) t := by
  cases p with
  | nil => rw [update_nil]; exact hf t (descend_nil t)
  | cons i p => cases t; exact sameRegion_refl _

theorem descend_update_below (f : AtlasTreeNode → AtlasTreeNode) {p : List Nat}
    {t n : AtlasTreeNode} (h : t.descend p = some n) (rel : List Nat) :
    (t.update f p).descend (p ++ rel) = (f n).descend rel := by
  induction p generalizing t with
  | nil =>
    rw [descend_nil] at h
    obtain rfl := Option.some.inj h
    rw [update_nil]; rfl
  | cons i p ih =>
    cases t with
    | mk x y w h' l cs =>
      rw [descend_cons] at h
      simp only [AtlasTreeNode.children] at h
      cases hc : cs[i]? with
      | none => simp [hc] at h
      | some c =>
        simp only [hc, Option.some_bind] at h
        rw [update_cons, List.cons_append, descend_cons]
        simp only [AtlasTreeNode.children, List.getElem?_modify_eq, hc, Option.map_eq_map,
          Option.map_some', Option.some_bind]
        exact ih h

theorem descend_update_self (f : AtlasTreeNode → AtlasTreeNode) {p : List Nat}
    {t n : AtlasTreeNode} (h : t.descend p = some n) :
    (t.update f p).descend p = some (f n) := by
  have := descend_update_below f h []
  rw [List.append_nil, descend_nil] at this
  exact this

theorem descend_update_other (f : AtlasTreeNode → AtlasTreeNode) {p q : List Nat}
    (t : AtlasTreeNode) (hpq : ¬ p <+: q) (hqp : ¬ q <+: p) :
    (t.update f p).descend q = t.descend q := by
  induction p generalizing t q with
  | nil => exact absurd List.nil_prefix hpq
  | cons i p ih =>
    cases q with
    | nil => exact absurd List.nil_prefix hqp
    | cons j q =>
      cases t with
      | mk x y w h' l cs =>
        rw [update_cons, descend_cons, descend_cons]
        simp only [AtlasTreeNode.children]
        by_cases hij : i = j
        · subst hij
          rw [List.getElem?_modify_eq]
          cases hc : cs[i]? with
          | none => rfl
          | some c =>
            simp only [Option.map_eq_map, Option.map_some', Option.some_bind]
            apply ih
            · intro h; exact hpq (by simpa using h)
            · intro h; exact hqp (by simpa using h)
        · rw [List.getElem?_modify_ne _ _ hij]

theorem pairwise_modify {α : Type} {R E : α → α → Prop}
    (hl : ∀ a a' b, E a' a → R a b → R a' b) (hr : ∀ a b b', E b' b → R a b → R a b')
    (g : α → α) (i : Nat) {l : List α} (hg : ∀ a, l[i]? = some a → E (g a) a)
    (h : l.Pairwise R) : (l.modify g i).Pairwise R := by
  rw [List.pairwise_iff_getElem] at h ⊢
  intro a b ha hb hab
  have ha' : a < l.length := by simpa using ha
  have hb' : b < l.length := by simpa using hb
  have hR := h a b ha' hb' hab
  rw [List.getElem_modify, List.getElem_modify]
  by_cases h1 : i = a
  · have h2 : i ≠ b := by omega
    rw [if_pos h1, if_neg h2]
    exact hl _ _ _ (hg _ (by subst h1; exact List.getElem?_eq_getElem ha')) hR
  · rw [if_neg h1]
    by_cases h2 : i = b
    · rw [if_pos h2]
      exact hr _ _ _ (hg _ (by subst h2; exact List.getElem?_eq_getElem hb')) hR
    · rw [if_neg h2]; exact hR

theorem mem_modify {α : Type} {g : α → α} {i : Nat} {l : List α} {b : α}
    (h : b ∈ l.modify g i) : b ∈ l ∨ ∃ a, l[i]? = some a ∧ b = g a := by
  obtain ⟨j, hj⟩ := List.mem_iff_getElem?.mp h
  rw [List.getElem?_modify] at hj
  cases hc : l[j]? with
  | none => simp [hc] at hj
  | some c =>
    simp only [hc, Option.map_eq_map, Option.map_some', Option.some.injEq] at hj
    by_cases hij : i = j
    · rw [if_pos hij] at hj
      exact Or.inr ⟨c, by rw [hij]; exact hc, hj.symm⟩
    · rw [if_neg hij] at hj
      exact Or.inl (hj ▸ List.getElem?_mem hc)

theorem Good_update (f : AtlasTreeNode → AtlasTreeNode) {p : List Nat} {t : AtlasTreeNode}
    (ht : Good t) (hf : ∀ n, t.descend p = some n → Good n → Good (f n) ∧ sameRegion (f n) n) :
    Good (t.update f p) := by
  induction p generalizing t with
  | nil => rw [update_nil]; exact (hf t (descend_nil t) ht).1
  | cons i p ih =>
    cases t with
    | mk x y w h l cs =>
      rw [update_cons]
      obtain ⟨hch, hpw⟩ := ht.children
      simp only [AtlasTreeNode.children] at hch hpw
      have hsub : ∀ c, cs[i]? = some c →
          Good (c.update f p) ∧ sameRegion (c.update f p) c := by
        intro c hc
        have hgc := (hch c (List.getElem?_mem hc)).1
        have hf' : ∀ n, c.descend p = some n → Good n → Good (f n) ∧ sameRegion (f n) n := by
          intro n hn
          apply hf
          rw [descend_cons]
          simp [AtlasTreeNode.children, hc, hn]
        refine ⟨ih hgc hf', sameRegion_update f p c fun n hn => ?_⟩
        exact (hf' n hn (Good_descend hgc hn).1).2
      refine Good.mk x y w h l _ ?_ ?_ ?_
      · intro b hb
        rcases mem_modify hb with hb | ⟨a, ha, rfl⟩
        · exact (hch b hb).1
        · exact (hsub a ha).1
      · intro b hb
        rcases mem_modify hb with hb | ⟨a, ha, rfl⟩
        · obtain ⟨-, h1, h2⟩ := hch b hb
          exact ⟨within_congr (sameRegion_refl _) ⟨rfl, rfl, rfl, rfl, rfl⟩ h1, h2⟩
        · obtain ⟨-, h1, h2⟩ := hch a (List.getElem?_mem ha)
          have hs := (hsub a ha).2
          exact ⟨within_congr hs ⟨rfl, rfl, rfl, rfl, rfl⟩ h1, hs.2.2.2.2.trans h2⟩
      · exact pairwise_modify (E := sameRegion)
          (fun a a' b he hR => overlaps_congr he (sameRegion_refl b) hR)
          (fun a b b' he hR => overlaps_congr (sameRegion_refl a) he hR)
          _ i (fun a ha => (hsub a ha).2) hpw

mutual
theorem find_spec (occ : List Nat → Bool) (w h : Int) :
    ∀ (t : AtlasTreeNode) (p0 p : List Nat),
      FindAtlasTreeNodeToInsert occ w h t p0 = some p →
      ∃ rel n, p = p0 ++ rel ∧ t.descend rel = some n ∧ n.children = [] ∧
        occ p = false ∧ w ≤ n.w ∧ h ≤ n.h
  | AtlasTreeNode.mk x y W H l [], p0, p, hf => by
    simp only [FindAtlasTreeNodeToInsert] at hf
    split at hf
    · rename_i hc
      obtain rfl := Option.some.inj hf
      simp only [Bool.and_eq_true, Bool.not_eq_true', decide_eq_true_eq] at hc
      exact ⟨[], _, by simp, rfl, rfl, hc.1.1, hc.1.2, hc.2⟩
    · exact absurd hf (by simp)
  | AtlasTreeNode.mk x y W H l (c :: cs), p0, p, hf => by
    simp only [FindAtlasTreeNodeToInsert] at hf
    obtain ⟨k, c', rel, n, hk, hp, hd, hl, ho, hw, hh⟩ :=
      findInChildren_spec occ w h (c :: cs) p0 0 p hf
    refine ⟨k :: rel, n, by simpa using hp, ?_, hl, ho, hw, hh⟩
    rw [descend_cons]
    simp only [AtlasTreeNode.children, hk, Option.some_bind]
    exact hd
theorem findInChildren_spec (occ : List Nat → Bool) (w h : Int) :
    ∀ (cs : List AtlasTreeNode) (p0 : List Nat) (i : Nat) (p : List Nat),
      findInChildren occ w h cs p0 i = some p →
      ∃ k c rel n, cs[k]? = some c ∧ p = p0 ++ (i + k) :: rel ∧ c.descend rel = some n ∧
        n.children = [] ∧ occ p = false ∧ w ≤ n.w ∧ h ≤ n.h
  | [], p0, i, p, hf => by
    simp [findInChildren] at hf
  | c :: cs, p0, i, p, hf => by
    simp only [findInChildren] at hf
    split at hf
    · rename_i r hr
      obtain rfl := Option.some.inj hf
      obtain ⟨rel, n, hp, hd, hl, ho, hw, hh⟩ := find_spec occ w h c (p0 ++ [i]) _ hr
      exact ⟨0, c, rel, n, by simp, by simpa using hp, hd, hl, ho, hw, hh⟩
    · obtain ⟨k, c', rel, n, hk, hp, hd, hl, ho, hw, hh⟩ :=
        findInChildren_spec occ w h cs p0 (i + 1) p hf
      refine ⟨k + 1, c', rel, n, by simpa using hk, ?_, hd, hl, ho, hw, hh⟩
      rw [hp]
      congr 2
      omega
end

theorem good_leaf (x y w h l : Int) : Good (AtlasTreeNode.mk x y w h l []) :=
  Good.mk x y w h l [] (by simp) (by simp) List.Pairwise.nil

theorem good_pair (x y w h l : Int) (c1 c2 : AtlasTreeNode) (hg1 : Good c1) (hg2 : Good c2)
    (hw1 : within c1 (AtlasTreeNode.mk x y w h l [])) (hw2 : within c2 (AtlasTreeNode.mk x y w h l []))
    (hl1 : c1.layer = l) (hl2 : c2.layer = l) (hno : ¬ overlaps c1 c2) :
    Good (AtlasTreeNode.mk x y w h l [c1, c2]) := by
  refine Good.mk x y w h l _ ?_ ?_ ?_
  · intro c hc
    simp only [List.mem_cons, List.mem_singleton, List.not_mem_nil, or_false] at hc
    rcases hc with rfl | rfl
    · exact hg1
    · exact hg2
  · intro c hc
    simp only [List.mem_cons, List.mem_singleton, List.not_mem_nil, or_false] at hc
    rcases hc with rfl | rfl
    · exact ⟨hw1, hl1⟩
    · exact ⟨hw2, hl2⟩
  · simp only [List.pairwise_cons, List.mem_singleton, forall_eq, List.not_mem_nil,
      false_implies, implies_true, List.Pairwise.nil, and_true]
    exact hno

theorem splitFor_spec (P : AtlasPolicy) (w h : Int) (n : AtlasTreeNode) (alongX : Bool)
    (hw0 : 0 ≤ w) (hh0 : 0 ≤ h) (hw : w ≤ n.w) (hh : h ≤ n.h) :
    Good (splitFor P w h n alongX).1 ∧ sameRegion (splitFor P w h n alongX).1 n ∧
      (∃ m, (splitFor P w h n alongX).1.descend (splitFor P w h n alongX).2 = some m ∧
        m.children = []) ∧
      (splitFor P w h n alongX).2 ≠ [] := by
  cases n with
  | mk x y W H l cs =>
    simp only [AtlasTreeNode.w, AtlasTreeNode.h] at hw hh
    cases alongX
    · by_cases hacc : accepts P w h (splitY h (AtlasTreeNode.mk x y W H l cs)).1 = true
      · simp only [splitFor, if_false, Bool.false_eq_true, hacc, if_true]
        refine ⟨?_, sameRegion_refl _, ⟨_, rfl, rfl⟩, by simp⟩
        apply good_pair _ _ _ _ _ _ _ (good_leaf _ _ _ _ _) (good_leaf _ _ _ _ _) <;>
          simp only [splitY, within, overlaps, AtlasTreeNode.x, AtlasTreeNode.y, AtlasTreeNode.w,
            AtlasTreeNode.h, AtlasTreeNode.layer] <;> omega
      · simp only [splitFor, if_false, Bool.false_eq_true, hacc]
        refine ⟨?_, sameRegion_refl _, ⟨_, rfl, rfl⟩, by simp⟩
        apply good_pair _ _ _ _ _ _ _ ?_ (good_leaf _ _ _ _ _)
        · simp only [splitY, splitX, within, AtlasTreeNode.x, AtlasTreeNode.y, AtlasTreeNode.w,
            AtlasTreeNode.h, AtlasTreeNode.layer]; omega
        · simp only [splitY, splitX, within, AtlasTreeNode.x, AtlasTreeNode.y, AtlasTreeNode.w,
            AtlasTreeNode.h, AtlasTreeNode.layer]; omega
        · rfl
        · rfl
        · simp only [splitY, splitX, overlaps, AtlasTreeNode.x, AtlasTreeNode.y, AtlasTreeNode.w,
            AtlasTreeNode.h, AtlasTreeNode.layer]; omega
        · apply good_pair _ _ _ _ _ _ _ (good_leaf _ _ _ _ _) (good_leaf _ _ _ _ _) <;>
            simp only [splitY, splitX, within, overlaps, AtlasTreeNode.x, AtlasTreeNode.y,
              AtlasTreeNode.w, AtlasTreeNode.h, AtlasTreeNode.layer] <;> omega
    · by_cases hacc : accepts P w h (splitX w (AtlasTreeNode.mk x y W H l cs)).1 = true
      · simp only [splitFor, if_true, hacc]
        refine ⟨?_, sameRegion_refl _, ⟨_, rfl, rfl⟩, by simp⟩
        apply good_pair _ _ _ _ _ _ _ (good_leaf _ _ _ _ _) (good_leaf _ _ _ _ _) <;>
          simp only [splitX, within, overlaps, AtlasTreeNode.x, AtlasTreeNode.y, AtlasTreeNode.w,
            AtlasTreeNode.h, AtlasTreeNode.layer] <;> omega
      · simp only [splitFor, if_true, hacc]
        refine ⟨?_, sameRegion_refl _, ⟨_, rfl, rfl⟩, by simp⟩
        apply good_pair _ _ _ _ _ _ _ ?_ (good_leaf _ _ _ _ _)
        · simp only [splitY, splitX, within, AtlasTreeNode.x, AtlasTreeNode.y, AtlasTreeNode.w,
            AtlasTreeNode.h, AtlasTreeNode.layer]; omega
        · simp only [splitY, splitX, within, AtlasTreeNode.x, AtlasTreeNode.y, AtlasTreeNode.w,
            AtlasTreeNode.h, AtlasTreeNode.layer]; omega
        · rfl
        · rfl
        · simp only [splitY, splitX, overlaps, AtlasTreeNode.x, AtlasTreeNode.y, AtlasTreeNode.w,
            AtlasTreeNode.h, AtlasTreeNode.layer]; omega
        · apply good_pair _ _ _ _ _ _ _ (good_leaf _ _ _ _ _) (good_leaf _ _ _ _ _) <;>
            simp only [splitY, splitX, within, overlaps, AtlasTreeNode.x, AtlasTreeNode.y,
              AtlasTreeNode.w, AtlasTreeNode.h, AtlasTreeNode.layer] <;> omega

theorem place_spec (P : AtlasPolicy) (w h : Int) (n : AtlasTreeNode)
    (hn : n.children = []) (hw0 : 0 ≤ w) (hh0 : 0 ≤ h) (hw : w ≤ n.w) (hh : h ≤ n.h) :
    Good (place P w h n).1 ∧ sameRegion (place P w h n).1 n ∧
      (∃ m, (place P w h n).1.descend (place P w h n).2 = some m ∧ m.children = []) ∧
      ((place P w h n).2 = [] → (place P w h n).1 = n) := by
  unfold place
  split
  · refine ⟨?_, sameRegion_refl _, ⟨n, descend_nil n, hn⟩, fun _ => rfl⟩
    cases n with
    | mk x y W H l cs =>
      simp only [AtlasTreeNode.children] at hn
      subst hn
      exact good_leaf _ _ _ _ _
  · obtain ⟨h1, h2, h3, h4⟩ := splitFor_spec P w h n
      (if w = n.w then false else if h = n.h then true else P.splitAlongX w h n.w n.h)
      hw0 hh0 hw hh
    exact ⟨h1, h2, h3, fun h => absurd h h4⟩

theorem nodeAt_eq {s : CanvasRenderer} {r : NodeRef} {n : AtlasTreeNode}
    (h : s.nodeAt r = some n) :
    ∃ t, s.m_atlas_tree[r.tree]? = some t ∧ t.descend r.path = some n := by
  unfold CanvasRenderer.nodeAt at h
  cases ht : s.m_atlas_tree[r.tree]? with
  | none => simp [ht] at h
  | some t => exact ⟨t, rfl, by simpa [ht] using h⟩

theorem nodeAt_of {s : CanvasRenderer} {r : NodeRef} {t : AtlasTreeNode}
    (ht : s.m_atlas_tree[r.tree]? = some t) : s.nodeAt r = t.descend r.path := by
  simp [CanvasRenderer.nodeAt, ht]

theorem live_disjoint {s : CanvasRenderer} (hs : AtlasInv s) {r1 r2 : NodeRef}
    {n1 n2 : AtlasTreeNode} (hr : r1 ≠ r2)
    (h1 : s.nodeAt r1 = some n1) (hl1 : n1.children = [])
    (h2 : s.nodeAt r2 = some n2) (hl2 : n2.children = [])
    (hlayer : n1.layer = n2.layer) : ¬ overlaps n1 n2 := by
  obtain ⟨t1, ht1, hd1⟩ := nodeAt_eq h1
  obtain ⟨t2, ht2, hd2⟩ := nodeAt_eq h2
  obtain ⟨hg1, hlay1⟩ := hs.1 _ _ ht1
  obtain ⟨hg2, hlay2⟩ := hs.1 _ _ ht2
  have e1 := (Good_descend hg1 hd1).2.2
  have e2 := (Good_descend hg2 hd2).2.2
  have htree : r1.tree = r2.tree := by
    have : (r1.tree : Int) = (r2.tree : Int) := by
      rw [← hlay1, ← hlay2, ← e1, ← e2]; exact hlayer
    exact_mod_cast this
  rw [← htree, ht1] at ht2
  obtain rfl := Option.some.inj ht2
  have hp : r1.path ≠ r2.path := by
    intro hp
    apply hr
    cases r1; cases r2
    simp only at htree hp
    subst htree; subst hp; rfl
  exact leaves_disjoint hg1 hp hd1 hl1 hd2 hl2

theorem AtlasInv_noOverlap {s : CanvasRenderer} (hs : AtlasInv s) :
    s.liveRegions.Pairwise (fun a b => a.layer = b.layer → ¬ overlaps a b) := by
  unfold CanvasRenderer.liveRegions
  have hp : s.m_atlas_cache.Pairwise (fun a b =>
      ∀ n1 ∈ s.nodeAt a.2, ∀ n2 ∈ s.nodeAt b.2, n1.layer = n2.layer → ¬ overlaps n1 n2) := by
    refine List.Pairwise.imp_of_mem ?_ hs.2.2
    intro a b ha hb hab n1 hn1 n2 hn2 hl
    obtain ⟨m1, hm1, hl1⟩ := hs.2.1 a ha
    obtain ⟨m2, hm2, hl2⟩ := hs.2.1 b hb
    have e1 : m1 = n1 := by
      rw [Option.mem_def, hm1] at hn1; exact Option.some.inj hn1
    have e2 : m2 = n2 := by
      rw [Option.mem_def, hm2] at hn2; exact Option.some.inj hn2
    subst e1; subst e2
    exact live_disjoint hs hab hm1 hl1 hm2 hl2 hl
  exact List.Pairwise.filterMap _ (fun a a' h b hb b' hb' => h b hb b' hb') hp

theorem AtlasInv_empty : AtlasInv CanvasRenderer.empty := by
  refine ⟨?_, ?_, ?_⟩
  · intro i t h; simp [CanvasRenderer.empty] at h
  · intro e h; simp [CanvasRenderer.empty] at h
  · simp [CanvasRenderer.empty]

theorem cached_lt {s : CanvasRenderer} (hs : AtlasInv s) {e : Nat × NodeRef}
    (he : e ∈ s.m_atlas_cache) : e.2.tree < s.m_atlas_tree.length := by
  obtain ⟨n, hn, -⟩ := hs.2.1 e he
  obtain ⟨t, ht, -⟩ := nodeAt_eq hn
  exact (List.getElem?_eq_some.mp ht).1

theorem AtlasInv_newLayer (P : AtlasPolicy) {s : CanvasRenderer} (hs : AtlasInv s) :
    AtlasInv (s.NewAtlasTextureLayer P) := by
  refine ⟨?_, ?_, hs.2.2⟩
  · intro i t h
    simp only [CanvasRenderer.NewAtlasTextureLayer] at h
    by_cases hi : i < s.m_atlas_tree.length
    · rw [List.getElem?_append_left hi] at h
      exact hs.1 i t h
    · rw [List.getElem?_append_right (by omega)] at h
      have h0 : i - s.m_atlas_tree.length = 0 := by
        by_contra hne
        rw [List.getElem?_eq_none (by simp; omega)] at h
        exact absurd h (by simp)
      rw [h0] at h
      simp only [List.getElem?_cons_zero, Option.some.injEq] at h
      subst h
      refine ⟨good_leaf _ _ _ _ _, ?_⟩
      simp only [AtlasTreeNode.layer]
      omega
  · intro e he
    obtain ⟨n, hn, hl⟩ := hs.2.1 e he
    refine ⟨n, ?_, hl⟩
    obtain ⟨t, ht, hd⟩ := nodeAt_eq hn
    have hlt := (List.getElem?_eq_some.mp ht).1
    simp only [CanvasRenderer.nodeAt, CanvasRenderer.NewAtlasTextureLayer]
    rw [List.getElem?_append_left hlt, ht]
    exact hd

theorem leaf_path_eq {t a b : AtlasTreeNode} {p q : List Nat}
    (ha : t.descend p = some a) (hal : a.children = []) (hb : t.descend q = some b)
    (hpq : p <+: q) : p = q := by
  obtain ⟨rest, rfl⟩ := hpq
  cases rest with
  | nil => simp
  | cons i rest =>
    rw [descend_append, ha, Option.some_bind, descend_leaf hal] at hb
    exact absurd hb (by simp)

theorem AtlasInv_insertAt (P : AtlasPolicy) (tex : Nat) (w h : Int) (r : NodeRef)
    {s : CanvasRenderer} (hs : AtlasInv s) {n : AtlasTreeNode}
    (hn : s.nodeAt r = some n) (hl : n.children = [])
    (hfree : ∀ e ∈ s.m_atlas_cache, e.2 ≠ r)
    (hw0 : 0 ≤ w) (hh0 : 0 ≤ h) (hw : w ≤ n.w) (hh : h ≤ n.h) :
    AtlasInv (s.insertAt P tex w h r).1 := by
  obtain ⟨t, ht, hd⟩ := nodeAt_eq hn
  obtain ⟨hpg, hps, ⟨m, hpm, hml⟩, hpe⟩ := place_spec P w h n hl hw0 hh0 hw hh
  have hins : (s.insertAt P tex w h r).1 = { s with
      m_atlas_tree := s.m_atlas_tree.modify
        (AtlasTreeNode.update (fun _ => (place P w h n).1) r.path) r.tree
      m_atlas_cache := (tex, ⟨r.tree, r.path ++ (place P w h n).2⟩) :: s.m_atlas_cache } := by
    simp [CanvasRenderer.insertAt, hn]
  rw [hins]
  have hlt := (List.getElem?_eq_some.mp ht).1
  have htree : (s.m_atlas_tree.modify
      (AtlasTreeNode.update (fun _ => (place P w h n).1) r.path) r.tree)[r.tree]? =
      some (t.update (fun _ => (place P w h n).1) r.path) := by
    rw [List.getElem?_modify_eq, ht]; rfl
  have hold : ∀ e ∈ s.m_atlas_cache, ∀ k, s.nodeAt e.2 = some k → k.children = [] →
      CanvasRenderer.nodeAt { s with
        m_atlas_tree := s.m_atlas_tree.modify
          (AtlasTreeNode.update (fun _ => (place P w h n).1) r.path) r.tree
        m_atlas_cache := (tex, ⟨r.tree, r.path ++ (place P w h n).2⟩) :: s.m_atlas_cache } e.2
        = some k := by
    intro e he k hk hkl
    obtain ⟨t', ht', hd'⟩ := nodeAt_eq hk
    by_cases htr : r.tree = e.2.tree
    · rw [← htr, ht] at ht'
      obtain rfl := Option.some.inj ht'
      have hne : r.path ≠ e.2.path := by
        intro hp
        apply hfree e he
        cases hr : r; cases he2 : e.2
        rw [hr, he2] at htr hp
        simp only at htr hp
        subst htr; subst hp; rfl
      simp only [CanvasRenderer.nodeAt]
      rw [← htr, htree]
      simp only
      rw [descend_update_other _ _ (fun hp => hne (leaf_path_eq hd hl hd' hp))
        (fun hp => hne (leaf_path_eq hd' hkl hd hp).symm)]
      exact hd'
    · simp only [CanvasRenderer.nodeAt]
      rw [List.getElem?_modify_ne _ _ htr, ht']
      exact hd'
  refine ⟨?_, ?_, ?_⟩
  · intro i t' h'
    simp only at h'
    by_cases hi : r.tree = i
    · subst hi
      rw [htree] at h'
      obtain rfl := Option.some.inj h'
      obtain ⟨hg, hlay⟩ := hs.1 _ _ ht
      refine ⟨Good_update _ hg (fun k hk _ => ?_), ?_⟩
      · rw [hd] at hk
        obtain rfl := Option.some.inj hk
        exact ⟨hpg, hps⟩
      · have := sameRegion_update (fun _ => (place P w h n).1) r.path t (fun k hk => by
          rw [hd] at hk
          obtain rfl := Option.some.inj hk
          exact hps)
        rw [this.2.2.2.2]; exact hlay
    · rw [List.getElem?_modify_ne _ _ hi] at h'
      exact hs.1 i t' h'
  · intro e he
    simp only [List.mem_cons] at he
    rcases he with rfl | he
    · refine ⟨m, ?_, hml⟩
      simp only [CanvasRenderer.nodeAt]
      rw [htree]
      simp only
      rw [descend_update_below _ hd]
      exact hpm
    · obtain ⟨k, hk, hkl⟩ := hs.2.1 e he
      exact ⟨k, hold e he k hk hkl, hkl⟩
  · simp only [List.pairwise_cons]
    refine ⟨?_, hs.2.2⟩
    intro e he heq
    obtain ⟨k, hk, hkl⟩ := hs.2.1 e he
    obtain ⟨t', ht', hd'⟩ := nodeAt_eq hk
    rw [← heq] at ht' hd'
    simp only at ht' hd'
    rw [ht] at ht'
    obtain rfl := Option.some.inj ht'
    have hp := leaf_path_eq hd hl hd' ⟨_, rfl⟩
    apply hfree e he
    rw [← heq]
    cases r
    simp only at hp ⊢
    rw [← hp]

theorem occupied_false {cache : List (Nat × NodeRef)} {r : NodeRef}
    (h : occupied cache r = false) : ∀ e ∈ cache, e.2 ≠ r := by
  intro e he heq
  have : occupied cache r = true := by
    simp only [occupied, List.any_eq_true, decide_eq_true_eq]
    exact ⟨e, he, heq⟩
  rw [h] at this
  exact absurd this (by simp)

theorem occupied_true {cache : List (Nat × NodeRef)} {e : Nat × NodeRef}
    (he : e ∈ cache) : occupied cache e.2 = true := by
  simp only [occupied, List.any_eq_true, decide_eq_true_eq]
  exact ⟨e, he, rfl⟩

theorem findInLayers_spec (cache : List (Nat × NodeRef)) (w h : Int) :
    ∀ (ts : List AtlasTreeNode) (i : Nat) (r : NodeRef),
      findInLayers cache w h ts i = some r →
      ∃ k t n, ts[k]? = some t ∧ r.tree = i + k ∧ t.descend r.path = some n ∧
        n.children = [] ∧ occupied cache r = false ∧ w ≤ n.w ∧ h ≤ n.h
  | [], i, r, hf => by simp [findInLayers] at hf
  | t :: ts, i, r, hf => by
    simp only [findInLayers] at hf
    split at hf
    · rename_i p hp
      obtain rfl := Option.some.inj hf
      obtain ⟨rel, n, hrel, hd, hl, ho, hw, hh⟩ := find_spec _ w h t [] p hp
      simp only [List.nil_append] at hrel
      subst hrel
      exact ⟨0, t, n, by simp, rfl, hd, hl, ho, hw, hh⟩
    · obtain ⟨k, t', n, hk, htree, hd, hl, ho, hw, hh⟩ :=
        findInLayers_spec cache w h ts (i + 1) r hf
      exact ⟨k + 1, t', n, by simpa using hk, by omega, hd, hl, ho, hw, hh⟩

theorem AtlasInv_Allocate (P : AtlasPolicy) (tex w h : Nat) {s : CanvasRenderer}
    (hs : AtlasInv s) {res : CanvasRenderer × NodeRef}
    (hres : s.Allocate P tex w h = some res) : AtlasInv res.1 := by
  unfold CanvasRenderer.Allocate at hres
  split at hres
  · obtain rfl := Option.some.inj hres
    exact hs
  · split at hres
    · rename_i r hr
      obtain rfl := Option.some.inj hres
      obtain ⟨k, t, n, hk, htree, hd, hl, ho, hw, hh⟩ := findInLayers_spec _ _ _ _ _ _ hr
      have hn : s.nodeAt r = some n := by
        rw [nodeAt_of (t := t) (by rw [htree, Nat.zero_add]; exact hk)]
        exact hd
      exact AtlasInv_insertAt P tex w h r hs hn hl (occupied_false ho)
        (by omega) (by omega) hw hh
    · simp only at hres
      split at hres
      · exact absurd hres (by simp)
      · rename_i hc
        obtain rfl := Option.some.inj hres
        simp only [Bool.or_eq_true, decide_eq_true_eq, not_or, not_lt] at hc
        have hs1 := AtlasInv_newLayer P hs
        have hn : (s.NewAtlasTextureLayer P).nodeAt ⟨s.m_atlas_tree.length, []⟩ =
            some (AtlasTreeNode.mk 0 0 P.size P.size s.m_atlas_tree.length []) := by
          simp [CanvasRenderer.nodeAt, CanvasRenderer.NewAtlasTextureLayer,
            AtlasTreeNode.descend]
        refine AtlasInv_insertAt P tex w h _ hs1 hn rfl ?_ (by omega) (by omega) hc.1.2 hc.2
        intro e he heq
        have hlt := cached_lt hs (e := e) he
        rw [heq] at hlt
        simp at hlt

theorem allChildrenFree_spec {occ : List Nat → Bool} {q : List Nat} {parent c : AtlasTreeNode}
    (h : allChildrenFree occ q parent = true) {i : Nat} (hc : parent.children[i]? = some c) :
    c.children = [] ∧ occ (q ++ [i]) = false := by
  simp only [allChildrenFree, List.all_eq_true, List.mem_range] at h
  have hi := (List.getElem?_eq_some.mp hc).1
  have := h i hi
  rw [hc] at this
  simpa using this

theorem clear_leaf {n : AtlasTreeNode} (h : n.children = []) : n.clear = n := by
  cases n
  simp only [AtlasTreeNode.children] at h
  subst h
  rfl

theorem clear_spec (n : AtlasTreeNode) : Good n.clear ∧ sameRegion n.clear n := by
  cases n
  exact ⟨good_leaf _ _ _ _ _, sameRegion_refl _⟩

theorem coalesce_spec (occ : List Nat → Bool) :
    ∀ (rp : List Nat) (t : AtlasTreeNode), Good t →
      Good (coalesce occ rp t) ∧ (coalesce occ rp t).layer = t.layer ∧
      ∀ c n, occ c = true → t.descend c = some n → n.children = [] →
        (coalesce occ rp t).descend c = some n
  | [], t, ht => ⟨ht, rfl, fun _ _ _ h _ => h⟩
  | _ :: rq, t, ht => by
    simp only [coalesce]
    split
    · rename_i parent hparent
      split
      · rename_i hfree
        have hg1 : Good (t.update AtlasTreeNode.clear rq.reverse) :=
          Good_update _ ht (fun n _ _ => clear_spec n)
        have hl1 : (t.update AtlasTreeNode.clear rq.reverse).layer = t.layer :=
          (sameRegion_update _ _ t (fun n _ => (clear_spec n).2)).2.2.2.2
        obtain ⟨h1, h2, h3⟩ := coalesce_spec occ rq _ hg1
        refine ⟨h1, h2.trans hl1, ?_⟩
        intro c n hocc hd hl
        apply h3 c n hocc _ hl
        by_cases hcq : c = rq.reverse
        · subst hcq
          rw [hparent] at hd
          obtain rfl := Option.some.inj hd
          rw [descend_update_self _ hparent, clear_leaf hl]
        · rw [descend_update_other]
          · exact hd
          · rintro ⟨rest, rfl⟩
            cases rest with
            | nil => exact hcq (by simp)
            | cons i rest =>
              rw [descend_append, hparent, Option.some_bind, descend_cons] at hd
              cases hci : parent.children[i]? with
              | none => simp [hci] at hd
              | some ci =>
                simp only [hci, Option.some_bind] at hd
                obtain ⟨hcl, hco⟩ := allChildrenFree_spec hfree hci
                cases rest with
                | nil => rw [hocc] at hco; exact absurd hco (by simp)
                | cons j rest => rw [descend_leaf hcl] at hd; exact absurd hd (by simp)
          · intro hp
            exact hcq (leaf_path_eq hd hl hparent hp)
      · exact ⟨ht, rfl, fun _ _ _ h _ => h⟩
    · exact ⟨ht, rfl, fun _ _ _ h _ => h⟩

theorem AtlasInv_Release (r : NodeRef) {s : CanvasRenderer} (hs : AtlasInv s) :
    AtlasInv (s.ReleaseAtlasTreeNode r) := by
  unfold CanvasRenderer.ReleaseAtlasTreeNode
  simp only
  refine ⟨?_, ?_, ?_⟩
  · intro i t h
    simp only at h
    by_cases hi : r.tree = i
    · subst hi
      rw [List.getElem?_modify_eq] at h
      cases ht : s.m_atlas_tree[r.tree]? with
      | none => simp [ht] at h
      | some t0 =>
        simp only [ht, Option.map_eq_map, Option.map_some', Option.some.injEq] at h
        subst h
        obtain ⟨hg, hl⟩ := hs.1 _ _ ht
        obtain ⟨h1, h2, -⟩ := coalesce_spec
          (fun p => occupied (s.m_atlas_cache.filter fun e => e.2 ≠ r) ⟨r.tree, p⟩)
          r.path.reverse t0 hg
        exact ⟨h1, h2.trans hl⟩
    · rw [List.getElem?_modify_ne _ _ hi] at h
      exact hs.1 i t h
  · intro e he
    have he' : e ∈ s.m_atlas_cache := (List.mem_filter.mp he).1
    obtain ⟨n, hn, hl⟩ := hs.2.1 e he'
    refine ⟨n, ?_, hl⟩
    obtain ⟨t, ht, hd⟩ := nodeAt_eq hn
    simp only [CanvasRenderer.nodeAt]
    by_cases hi : r.tree = e.2.tree
    · rw [← hi] at ht
      rw [← hi, List.getElem?_modify_eq, ht]
      simp only [Option.map_eq_map, Option.map_some']
      obtain ⟨hg, -⟩ := hs.1 _ _ ht
      obtain ⟨-, -, h3⟩ := coalesce_spec
        (fun p => occupied (s.m_atlas_cache.filter fun e => e.2 ≠ r) ⟨r.tree, p⟩)
        r.path.reverse t hg
      apply h3 e.2.path n _ hd hl
      have := occupied_true he
      rw [hi]
      exact this
    · rw [List.getElem?_modify_ne _ _ hi, ht]
      exact hd
  · exact hs.2.2.sublist (List.filter_sublist _)

theorem AtlasInv_apply (P : AtlasPolicy) (op : AtlasOp) {s : CanvasRenderer}
    (hs : AtlasInv s) : AtlasInv (s.apply P op) := by
  cases op with
  | allocate tex w h =>
    simp only [CanvasRenderer.apply]
    split
    · rename_i res hres
      exact AtlasInv_Allocate P tex w h hs hres
    · exact hs
  | release r => exact AtlasInv_Release r hs
  | newLayer =>
    simp only [CanvasRenderer.apply]
    split
    · split
      · exact hs
      · exact AtlasInv_newLayer P hs
    · exact AtlasInv_newLayer P hs

theorem AtlasInv_runOps (P : AtlasPolicy) (ops : List AtlasOp) :
    ∀ {s : CanvasRenderer}, AtlasInv s → AtlasInv (s.runOps P ops) := by
  induction ops with
  | nil => intro s hs; exact hs
  | cons op ops ih =>
    intro s hs
    exact ih (AtlasInv_apply P op hs)

/-- Claim C10: after any number `k` of operations of any sequence of allocations,
releases and new layers, from the empty atlas and for any packing policy, every
cache entry points to a node of the forest and no two live regions of the same
layer overlap. -/
theorem C10_atlas_no_overlap (P : AtlasPolicy) (ops : List AtlasOp) (k : Nat) :
    (∀ e ∈ (CanvasRenderer.empty.runOps P (ops.take k)).m_atlas_cache,
      ∃ n, (CanvasRenderer.empty.runOps P (ops.take k)).nodeAt e.2 = some n) ∧
    (CanvasRenderer.empty.runOps P (ops.take k)).liveRegions.Pairwise
      (fun a b => a.layer = b.layer → ¬ overlaps a b) := by
  have hinv := AtlasInv_runOps P (ops.take k) AtlasInv_empty
  refine ⟨fun e he => ?_, AtlasInv_noOverlap hinv⟩
  obtain ⟨n, hn, -⟩ := hinv.2.1 e he
  exact ⟨n, hn⟩

/-- Claim C10 on a run of the classic policy: after two allocations in layer 0, one
that needs a second layer, a release and one more allocation, two textures are live
in layer 0 and one in layer 1, and they do not overlap. -/
theorem C10_witness :
    (CanvasRenderer.empty.runOps demoPolicy
        (List.take 5 [AtlasOp.allocate 1 4 4, AtlasOp.allocate 2 8 8, AtlasOp.allocate 3 16 16,
          AtlasOp.release ⟨0, [0, 0]⟩, AtlasOp.allocate 4 12 3])).liveRegions.map
        (fun n => (n.layer, n.x, n.y, n.w, n.h))
      = [(0, 0, 0, 12, 3), (1, 0, 0, 16, 16), (0, 0, 4, 8, 8)] ∧
    (CanvasRenderer.empty.runOps demoPolicy
        (List.take 5 [AtlasOp.allocate 1 4 4, AtlasOp.allocate 2 8 8, AtlasOp.allocate 3 16 16,
          AtlasOp.release ⟨0, [0, 0]⟩, AtlasOp.allocate 4 12 3])).liveRegions.Pairwise
      (fun a b => a.layer = b.layer → ¬ overlaps a b) :=
  ⟨by decide, (C10_atlas_no_overlap demoPolicy _ 5).2⟩

end Viry3D
